import Mathlib

/-!
Verification development for a DXF-to-tiled-PDF converter (src/main.py).

The geometry model (Point, RectXY, Line, Arc, Ellipse), the tiling planner
(Params, cut sizes, tile counts), the per-tile world-to-page transform, the
empty-page detector, the page compositor and the ingestion loop are embedded
below, following the Python source line by line.  Real-number fields model
Python floats; the tiling and detector arithmetic, which the source only ever
combines with comparisons and ceilings, is embedded over the rationals so the
statements stay decidable.
-/

namespace DxfPdf

open Real

/-! ### Geometry data model (src/main.py, lines 31-66) -/

/-- `Point` (main.py line 31): a plain pair of coordinates.  The source class
is used with Python floats; the coordinate type is a parameter so the tiling
part can reuse it over `ℚ`. -/
@[ext]
structure Point (α : Type) where
  x : α
  y : α
deriving Repr, DecidableEq

/-- `Point.offset` (main.py lines 36-38): subtracts the other point
component-wise.  The in-place mutation of the source becomes a returned
value. -/
def Point.offset {α : Type} [Sub α] (p q : Point α) : Point α :=
  ⟨p.x - q.x, p.y - q.y⟩

/-- `RectXY` (main.py line 40): an axis-aligned rectangle given by its
bottom-left and top-right corners. -/
@[ext]
structure RectXY (α : Type) where
  bl : Point α
  tr : Point α
deriving Repr, DecidableEq

/-- `RectXY.offset` (main.py lines 45-47): offsets both corners. -/
def RectXY.offset {α : Type} [Sub α] (r : RectXY α) (q : Point α) : RectXY α :=
  ⟨r.bl.offset q, r.tr.offset q⟩

/-- Containment of a point in a rectangle (the spec's "lies inside the
rectangle returned by bounds"). -/
def RectXY.containsPt (r : RectXY ℝ) (p : Point ℝ) : Prop :=
  r.bl.x ≤ p.x ∧ p.x ≤ r.tr.x ∧ r.bl.y ≤ p.y ∧ p.y ≤ r.tr.y

/-- `Line` (main.py line 49).  `end` is a Lean keyword, hence the guillemets
around the second field's name. -/
@[ext]
structure Line where
  start : Point ℝ
  «end» : Point ℝ

/-- `Line.bounds` (main.py lines 58-62): component-wise min/max of the two
endpoints. -/
noncomputable def Line.bounds (l : Line) : RectXY ℝ :=
  ⟨⟨min l.start.x l.«end».x, min l.start.y l.«end».y⟩,
   ⟨max l.start.x l.«end».x, max l.start.y l.«end».y⟩⟩

/-- `Line.offset` (main.py lines 64-66): offsets the two endpoints. -/
def Line.offset (l : Line) (q : Point ℝ) : Line :=
  ⟨l.start.offset q, l.«end».offset q⟩

/-- `Arc` (main.py line 68): circle arc; angles in degrees. -/
@[ext]
structure Arc where
  center : Point ℝ
  r : ℝ
  start_angle : ℝ
  end_angle : ℝ

/-- The sweep-membership test of `Arc.bounds` (main.py lines 88-92):
`(start <= a <= end) or (wrap and a <= end) or (wrap and start <= a)` with
`wrap = start > end`. -/
def sweepTest (s e a : ℝ) : Prop :=
  (s ≤ a ∧ a ≤ e) ∨ (s > e ∧ a ≤ e) ∨ (s > e ∧ s ≤ a)

/-- Degrees-to-radians cosine, mirroring `math.cos(angle * math.pi/180)`
(main.py line 97). -/
noncomputable def dcos (d : ℝ) : ℝ := Real.cos (d * π / 180)

/-- Degrees-to-radians sine, mirroring `math.sin(angle * math.pi/180)`
(main.py line 98). -/
noncomputable def dsin (d : ℝ) : ℝ := Real.sin (d * π / 180)

/-- The sample point of `Arc.bounds` at one angle (main.py lines 97-98). -/
noncomputable def Arc.pointAt (A : Arc) (a : ℝ) : Point ℝ :=
  ⟨A.center.x + A.r * dcos a, A.center.y + A.r * dsin a⟩

open Classical in
/-- The candidate angle list of `Arc.bounds` (main.py lines 87-93): the two
endpoint angles followed by the cardinal angles that pass the sweep test. -/
noncomputable def Arc.candAngles (A : Arc) : List ℝ :=
  [A.start_angle, A.end_angle] ++
    ([0, 90, 180, 270].filter fun a => decide (sweepTest A.start_angle A.end_angle a))

/-- Minimum of a list of reals.  `Arc.bounds` initialises its running minimum
at `+inf` (main.py lines 82-85), so over the always-nonempty candidate list it
equals this fold; the empty-list value is never reached. -/
noncomputable def listMin : List ℝ → ℝ
  | [] => 0
  | a :: t => t.foldl min a

/-- Maximum of a list of reals; see `listMin`. -/
noncomputable def listMax : List ℝ → ℝ
  | [] => 0
  | a :: t => t.foldl max a

/-- `Arc.bounds` (main.py lines 80-104): fold min/max over the sample points
at the candidate angles. -/
noncomputable def Arc.bounds (A : Arc) : RectXY ℝ :=
  ⟨⟨listMin (A.candAngles.map fun a => (A.pointAt a).x),
    listMin (A.candAngles.map fun a => (A.pointAt a).y)⟩,
   ⟨listMax (A.candAngles.map fun a => (A.pointAt a).x),
    listMax (A.candAngles.map fun a => (A.pointAt a).y)⟩⟩

/-- `Arc.offset` (main.py lines 106-107): offsets the center only. -/
def Arc.offset (A : Arc) (q : Point ℝ) : Arc :=
  { A with center := A.center.offset q }

/-- `Ellipse` (main.py line 109): elliptical arc; `major_axis` is a vector
from the center, parameters are radians. -/
@[ext]
structure Ellipse where
  center : Point ℝ
  major_axis : Point ℝ
  ratio : ℝ
  start_param : ℝ
  end_param : ℝ

/-- Python's float modulo `x % m` for positive modulus, used by
`Ellipse.bounds` to normalize parameters (main.py lines 137-138). -/
noncomputable def fmod (x m : ℝ) : ℝ := x - m * ⌊x / m⌋

/-- `np.arctan2 y x` (main.py line 134): the angle of the vector `(x, y)`,
in `(-π, π]`, which is the complex argument of `x + y i`. -/
noncomputable def arctan2 (y x : ℝ) : ℝ := Complex.arg ⟨x, y⟩

/-- The normalized start parameter of `Ellipse.bounds` (main.py line 137). -/
noncomputable def Ellipse.normStart (E : Ellipse) : ℝ := fmod E.start_param (2 * π)

open Classical in
/-- The normalized end parameter of `Ellipse.bounds` (main.py lines 138-140):
reduce modulo `2π`, then add `2π` when the result is at most the normalized
start. -/
noncomputable def Ellipse.normEnd (E : Ellipse) : ℝ :=
  let e_ := fmod E.end_param (2 * π)
  if e_ ≤ E.normStart then e_ + 2 * π else e_

/-- `np.linspace s e n` (main.py line 143): `n` evenly spaced samples from `s`
to `e` inclusive. -/
noncomputable def linspace (s e : ℝ) (n : ℕ) : List ℝ :=
  (List.range n).map fun k : ℕ => s + (e - s) * (k : ℝ) / ((n : ℝ) - 1)

/-- `a = np.hypot(dx, dy)` (main.py line 132): the semi-major axis length. -/
noncomputable def Ellipse.semiMajor (E : Ellipse) : ℝ :=
  Real.sqrt (E.major_axis.x ^ 2 + E.major_axis.y ^ 2)

/-- `theta = np.arctan2(dy, dx)` (main.py line 134): the rotation angle of the
major axis. -/
noncomputable def Ellipse.theta (E : Ellipse) : ℝ :=
  arctan2 E.major_axis.y E.major_axis.x

/-- The sample point of `Ellipse.bounds` at parameter `t` (main.py lines
130-134 and 144-151): `a = hypot(major_axis)`, `b = a * ratio`,
`θ = arctan2(dy, dx)`; the unrotated point `(a cos t, b sin t)` rotated by `θ`
and shifted to the center. -/
noncomputable def Ellipse.pointAt (E : Ellipse) (t : ℝ) : Point ℝ :=
  ⟨E.semiMajor * Real.cos t * Real.cos E.theta
      - E.semiMajor * E.ratio * Real.sin t * Real.sin E.theta + E.center.x,
   E.semiMajor * Real.cos t * Real.sin E.theta
      + E.semiMajor * E.ratio * Real.sin t * Real.cos E.theta + E.center.y⟩

/-- `Ellipse.bounds` (main.py lines 128-157): sample the arc at `num_points`
parameters evenly spaced over the normalized range and take the min/max of
the sampled coordinates. -/
noncomputable def Ellipse.bounds (E : Ellipse) (num_points : ℕ := 1000) : RectXY ℝ :=
  let ts := linspace E.normStart E.normEnd num_points
  ⟨⟨listMin (ts.map fun t => (E.pointAt t).x), listMin (ts.map fun t => (E.pointAt t).y)⟩,
   ⟨listMax (ts.map fun t => (E.pointAt t).x), listMax (ts.map fun t => (E.pointAt t).y)⟩⟩

/-- `Ellipse.offset` (main.py lines 159-160): offsets the center only. -/
def Ellipse.offset (E : Ellipse) (q : Point ℝ) : Ellipse :=
  { E with center := E.center.offset q }

/-- `update_bounds` (main.py lines 162-165): component-wise min of the
bottom-left corners and max of the top-right corners. -/
noncomputable def update_bounds (bb1 bb2 : RectXY ℝ) : RectXY ℝ :=
  ⟨⟨min bb1.bl.x bb2.bl.x, min bb1.bl.y bb2.bl.y⟩,
   ⟨max bb1.tr.x bb2.tr.x, max bb1.tr.y bb2.tr.y⟩⟩

/-- The closed entity variant set handled by `draw_entity`, `add_entity` and
the ingestion dispatch (main.py lines 236-243 and 339-356). -/
inductive Entity
  | line (l : Line)
  | arc (a : Arc)
  | ellipse (e : Ellipse)

/-- Entity bounds dispatch: each variant's `bounds` method, the ellipse with
its default sample count, as called by `add_entity` (main.py line 335). -/
noncomputable def Entity.bounds : Entity → RectXY ℝ
  | .line l => l.bounds
  | .arc a => a.bounds
  | .ellipse e => e.bounds

/-- Entity offset dispatch (main.py line 360 calls `e.offset(bb.bl)` on every
variant). -/
def Entity.offset : Entity → Point ℝ → Entity
  | .line l, q => .line (l.offset q)
  | .arc a, q => .arc (a.offset q)
  | .ellipse e, q => .ellipse (e.offset q)

/-! ### Tiling planner (src/main.py, lines 13-29 and 379-402) -/

/-- `Params` (main.py lines 13-18). -/
structure Params where
  orientation : String := "landscape"
  scale : ℚ := 2.5
  overlap : ℚ := 0.5
  margin : ℚ := 0.25
deriving Repr, DecidableEq

/-- Page width fixed by `Params.__post_init__` (main.py lines 20-26). -/
def Params.page_w (p : Params) : ℚ := if p.orientation = "landscape" then 11 else 8.5

/-- Page height fixed by `Params.__post_init__` (main.py lines 20-26). -/
def Params.page_h (p : Params) : ℚ := if p.orientation = "landscape" then 8.5 else 11

/-- `Params.cutx` (main.py line 28): printable span per tile along x, in world
units. -/
def Params.cutx (p : Params) : ℚ := (p.page_w - p.overlap - 2 * p.margin) / p.scale

/-- `Params.cuty` (main.py line 29). -/
def Params.cuty (p : Params) : ℚ := (p.page_h - p.overlap - 2 * p.margin) / p.scale

/-- `num_cutsx` (main.py line 379): number of tile columns for a normalized
extent of width `w` (after normalization `bb.tr.x` is the extent width). -/
def num_cutsx (p : Params) (w : ℚ) : ℤ := ⌈w / p.cutx⌉

/-- `num_cutsy` (main.py line 380). -/
def num_cutsy (p : Params) (h : ℚ) : ℤ := ⌈h / p.cuty⌉

/-- Number of candidate pages produced by the nested loops of main.py lines
385-386: one page per `(i, j)` with `i < num_cutsx`, `j < num_cutsy`. -/
def pageCount (p : Params) (w h : ℚ) : ℤ := num_cutsx p w * num_cutsy p h

/-- The endpoint map of `PDFDrawer.draw_line` (main.py lines 184-191): a world
point is sent to `(scale*(x+ox)+margin, page_h - scale*(y+oy) - margin)` where
`(ox, oy)` is the drawer's offset. -/
def worldToPage (p : Params) (o : Point ℚ) (w : Point ℚ) : Point ℚ :=
  ⟨p.scale * (w.x + o.x) + p.margin, p.page_h - p.scale * (w.y + o.y) - p.margin⟩

/-- The drawer offset used for the content layer of tile `(i, j)`:
`Point(-x, -y)` with `x = i*cutx`, `y = j*cuty` (main.py lines 387-395). -/
def tileContentOffset (p : Params) (i j : ℕ) : Point ℚ :=
  ⟨-((i : ℚ) * p.cutx), -((j : ℚ) * p.cuty)⟩

/-- The drawer offset used for the alignment-mark overlay layer of tile
`(i, j)`: the same `Point(-x, -y)` (main.py lines 397-401). -/
def tileGridOffset (p : Params) (i j : ℕ) : Point ℚ :=
  ⟨-((i : ℚ) * p.cutx), -((j : ℚ) * p.cuty)⟩

/-! ### Empty-page detector (src/main.py, lines 274-309) -/

/-- A rasterized grayscale page: its pixel grid dimensions and the luminance
samples returned by `getdata()` (0 = black .. 255 = white). -/
structure GrayImage where
  width : ℕ
  height : ℕ
  pixels : List ℕ
deriving Repr, DecidableEq

/-- The counting loop of `analyze_pdf_for_empty_pages` (main.py lines
295-298): count the pixels with luminance strictly below 250. -/
def nonWhiteCount (img : GrayImage) : ℕ :=
  img.pixels.foldl (fun c p => if p < 250 then c + 1 else c) 0

/-- `total_pixels` (main.py line 301). -/
def totalPixels (img : GrayImage) : ℕ := img.width * img.height

/-- `non_white_percentage` (main.py line 302). -/
def nonWhitePct (img : GrayImage) : ℚ :=
  ((nonWhiteCount img : ℚ) / (totalPixels img : ℚ)) * 100

/-- `is_empty` (main.py line 304): the page classifies empty iff the
non-white percentage is strictly below 0.1. -/
def pageIsEmpty (img : GrayImage) : Prop := nonWhitePct img < 0.1

instance (img : GrayImage) : Decidable (pageIsEmpty img) := by
  unfold pageIsEmpty; infer_instance

/-! ### Page compositor (src/main.py, lines 425-441) -/

/-- `PyPDF2`'s `base.merge_page(added)`: the added page's content stream is
appended after (drawn on top of) the base page's content stream.  A page is
modelled as its list of drawing operations. -/
def mergePage {α : Type} (base added : List α) : List α := base ++ added

/-- The compositing loop (main.py lines 425-432): for the `i`-th pair of
(content page, grid/overlay page), when `i` is among the non-empty indices
the content page is merged onto the grid page and the result appended to the
writer, incrementing the kept count; otherwise the pair is dropped and the
removed count incremented. -/
def compositeLoop {α : Type} (nonEmpty : List ℕ) : ℕ → List (List α × List α) →
    List (List α) × ℕ × ℕ
  | _, [] => ([], 0, 0)
  | i, (page, grid_page) :: rest =>
    let r := compositeLoop nonEmpty (i + 1) rest
    if i ∈ nonEmpty then (mergePage grid_page page :: r.1, r.2.1 + 1, r.2.2)
    else (r.1, r.2.1, r.2.2 + 1)

/-- The whole compositor: iterate over `zip(reader.pages, grid_reader.pages)`
with `enumerate` starting at 0 (main.py line 425), returning the output page
list and the `(kept, removed)` counts. -/
def compositor {α : Type} (contentPages gridPages : List (List α)) (nonEmpty : List ℕ) :
    List (List α) × ℕ × ℕ :=
  compositeLoop nonEmpty 0 (contentPages.zip gridPages)

/-! ### Ingestion (src/main.py, lines 327-356) -/

/-- A parsed DXF modelspace entity as seen by the ingestion loop: the
supported kinds carry the fields read from them, `spline` carries its
pre-flattened point list (main.py line 348), and `other` carries the
`dxftype()` string of any remaining kind. -/
inductive DxfEntity
  | line (s e : Point ℝ)
  | arc (c : Point ℝ) (r sa ea : ℝ)
  | ellipse (c ma : Point ℝ) (ratio sp ep : ℝ)
  | spline (pts : List (Point ℝ))
  | mtext (text : String)
  | other (dxftype : String)

/-- Whether a parsed entity is of an unsupported kind. -/
def DxfEntity.isOther : DxfEntity → Bool
  | .other _ => true
  | _ => false

/-- The ingestion accumulator: the running bounding box and the entity list
(main.py lines 328-337). -/
structure IngestState where
  bb : RectXY ℝ
  entities : List Entity

/-- `add_entity` (main.py lines 331-337): append the entity and fold its
bounds into the running bounding box. -/
noncomputable def addEntity (st : IngestState) (e : Entity) : IngestState :=
  ⟨update_bounds st.bb e.bounds, st.entities ++ [e]⟩

/-- One step of the ingestion dispatch (main.py lines 339-356): LINE, ARC and
ELLIPSE append one entity; SPLINE appends a line per consecutive point pair of
its flattened polyline; MTEXT is skipped (with a printed diagnostic, outside
this model); any other kind raises `ValueError`. -/
noncomputable def processEntity (st : IngestState) : DxfEntity → Except String IngestState
  | .line s e => .ok (addEntity st (.line ⟨s, e⟩))
  | .arc c r sa ea => .ok (addEntity st (.arc ⟨c, r, sa, ea⟩))
  | .ellipse c ma ratio sp ep => .ok (addEntity st (.ellipse ⟨c, ma, ratio, sp, ep⟩))
  | .spline pts =>
    .ok ((pts.zip pts.tail).foldl (fun s pr => addEntity s (.line ⟨pr.1, pr.2⟩)) st)
  | .mtext _ => .ok st
  | .other dxftype => .error ("Unsupported entity type: " ++ dxftype)

/-- The ingestion loop over the modelspace entities; a raised error aborts the
whole conversion (nothing after it is processed and no document is written). -/
noncomputable def ingest (st : IngestState) : List DxfEntity → Except String IngestState
  | [] => .ok st
  | e :: rest =>
    match processEntity st e with
    | .ok st' => ingest st' rest
    | .error m => .error m

/-! ### Tiling claims -/

/-- The parameter set built from the source defaults (main.py lines 14-18). -/
def defaultParams : Params := {}

/-- C1, counterexample: with the default landscape configuration
(`cutx = 4`, `cuty = 3`) a zero-extent drawing yields `ceil(0/4) = 0` tile
columns, `0` tile rows and `0` candidate pages, so the claimed "both tilesX
and tilesY are at least 1 even for a zero-extent drawing" fails: no page is
produced. -/
theorem grid_size_zero_extent_counterexample :
    ¬(1 ≤ num_cutsx defaultParams 0) ∧ ¬(1 ≤ num_cutsy defaultParams 0) ∧
      pageCount defaultParams 0 0 = 0 := by
  have hx : num_cutsx defaultParams 0 = 0 := by
    unfold num_cutsx
    rw [zero_div, Int.ceil_zero]
  have hy : num_cutsy defaultParams 0 = 0 := by
    unfold num_cutsy
    rw [zero_div, Int.ceil_zero]
  refine ⟨by omega, by omega, ?_⟩
  unfold pageCount
  rw [hx, hy, mul_zero]

/-- C1 (amended): the tile grid dimensions equal
`tilesX = ceil(width / cutX)` and `tilesY = ceil(height / cutY)` with
`cut = (pageDimension - overlap - 2*margin) / scale` per axis, and both are at
least 1 (so at least one page is produced) whenever the extent dimensions are
strictly positive; for a zero-extent drawing the counts are 0 and no page is
produced. -/
theorem grid_size_amended (p : Params) (w h : ℚ) :
    num_cutsx p w = ⌈w / ((p.page_w - p.overlap - 2 * p.margin) / p.scale)⌉ ∧
    num_cutsy p h = ⌈h / ((p.page_h - p.overlap - 2 * p.margin) / p.scale)⌉ ∧
    (0 < w → 0 < p.cutx → 1 ≤ num_cutsx p w) ∧
    (0 < h → 0 < p.cuty → 1 ≤ num_cutsy p h) ∧
    (0 < w → 0 < h → 0 < p.cutx → 0 < p.cuty → 1 ≤ pageCount p w h) ∧
    (0 < p.cutx → num_cutsx p 0 = 0) := by
  have hx : ∀ w' : ℚ, 0 < w' → 0 < p.cutx → 1 ≤ num_cutsx p w' := by
    intro w' hw hcut
    have : (0 : ℤ) < ⌈w' / p.cutx⌉ := Int.ceil_pos.mpr (div_pos hw hcut)
    unfold num_cutsx
    omega
  have hy : ∀ h' : ℚ, 0 < h' → 0 < p.cuty → 1 ≤ num_cutsy p h' := by
    intro h' hh hcut
    have : (0 : ℤ) < ⌈h' / p.cuty⌉ := Int.ceil_pos.mpr (div_pos hh hcut)
    unfold num_cutsy
    omega
  refine ⟨rfl, rfl, hx w, hy h, ?_, ?_⟩
  · intro hw hh hcx hcy
    have h1 := hx w hw hcx
    have h2 := hy h hh hcy
    have : (0 : ℤ) < num_cutsx p w * num_cutsy p h := mul_pos (by omega) (by omega)
    unfold pageCount
    omega
  · intro _
    unfold num_cutsx
    rw [zero_div, Int.ceil_zero]

/-- C1 witness: the default configuration with a positive extent. -/
theorem grid_size_amended_witness :
    (0 : ℚ) < 4 ∧ 0 < defaultParams.cutx ∧ 1 ≤ num_cutsx defaultParams 4 := by
  have hcut : (0 : ℚ) < defaultParams.cutx := by
    norm_num [defaultParams, Params.cutx, Params.page_w]
  exact ⟨by norm_num, hcut, (grid_size_amended defaultParams 4 3).2.2.1 (by norm_num) hcut⟩

/-- C4: tile `(i, j)` maps the world point `(x, y)` to page coordinates
`pageX = scale*(x - i*cutX) + margin` and
`pageY = pageHeight - scale*(y - j*cutY) - margin`, and the content layer and
the alignment-mark overlay layer of the same tile use the identical drawer
offset and hence the identical transform. -/
theorem tile_transform_formula (p : Params) (i j : ℕ) (x y : ℚ) :
    worldToPage p (tileContentOffset p i j) ⟨x, y⟩ =
      ⟨p.scale * (x - (i : ℚ) * p.cutx) + p.margin,
       p.page_h - p.scale * (y - (j : ℚ) * p.cuty) - p.margin⟩ ∧
    tileContentOffset p i j = tileGridOffset p i j ∧
    worldToPage p (tileGridOffset p i j) ⟨x, y⟩ =
      worldToPage p (tileContentOffset p i j) ⟨x, y⟩ := by
  refine ⟨?_, rfl, rfl⟩
  unfold worldToPage tileContentOffset
  apply Point.ext <;> dsimp only <;> ring

/-! ### Empty-page detector claims -/

/-- The counting loop of the detector, as a fold from an arbitrary start
count, equals the start count plus the number of pixels below the
threshold. -/
theorem countLoop_eq (l : List ℕ) (n : ℕ) :
    l.foldl (fun c p => if p < 250 then c + 1 else c) n =
      n + (l.filter fun p => decide (p < 250)).length := by
  induction l generalizing n with
  | nil => simp
  | cons a t ih =>
    by_cases h : a < 250
    · simp [List.foldl_cons, List.filter_cons, h, ih]
      omega
    · simp [List.foldl_cons, List.filter_cons, h, ih]

/-- C5: the empty-tile detector counts exactly the pixels with luminance
strictly below 250, computes `nonWhitePct = 100 * nonWhiteCount /
totalPixels`, classifies the page empty iff `nonWhitePct < 0.1`, and a page
whose raster is entirely white always classifies empty. -/
theorem empty_page_policy (img : GrayImage)
    (hlen : img.pixels.length = img.width * img.height)
    (hpos : 0 < totalPixels img) :
    nonWhiteCount img = (img.pixels.filter fun p => decide (p < 250)).length ∧
    nonWhitePct img = 100 * (nonWhiteCount img : ℚ) / (totalPixels img : ℚ) ∧
    (pageIsEmpty img ↔ nonWhitePct img < 1 / 10) ∧
    ((∀ p ∈ img.pixels, p = 255) → pageIsEmpty img) := by
  refine ⟨?_, by unfold nonWhitePct; ring, by norm_num [pageIsEmpty], ?_⟩
  · unfold nonWhiteCount
    simpa using countLoop_eq img.pixels 0
  · intro hwhite
    have hfil : (img.pixels.filter fun p => decide (p < 250)) = [] := by
      rw [List.filter_eq_nil_iff]
      intro p hp
      simp [hwhite p hp]
    have hcount : nonWhiteCount img = 0 := by
      unfold nonWhiteCount
      rw [countLoop_eq, hfil]
      rfl
    unfold pageIsEmpty nonWhitePct
    rw [hcount]
    norm_num

/-- C5 witness: a 1-by-1 all-white raster classifies empty. -/
theorem empty_page_policy_witness :
    (GrayImage.mk 1 1 [255]).pixels.length = 1 * 1 ∧
    0 < totalPixels ⟨1, 1, [255]⟩ ∧ pageIsEmpty ⟨1, 1, [255]⟩ :=
  ⟨by decide, by decide,
    (empty_page_policy ⟨1, 1, [255]⟩ (by decide) (by decide)).2.2.2 (by decide)⟩

/-! ### Offset frame claims -/

/-- C7: `offset` translates only the position-defining fields — the `Line`
endpoints and the `Arc`/`Ellipse` centers — and leaves the arc's radius and
angles and the ellipse's major-axis vector, ratio and parameters unchanged. -/
theorem offset_non_position_fields (l : Line) (A : Arc) (E : Ellipse) (d : Point ℝ) :
    (l.offset d).start = l.start.offset d ∧ (l.offset d).«end» = l.«end».offset d ∧
    (A.offset d).center = A.center.offset d ∧ (A.offset d).r = A.r ∧
    (A.offset d).start_angle = A.start_angle ∧ (A.offset d).end_angle = A.end_angle ∧
    (E.offset d).center = E.center.offset d ∧ (E.offset d).major_axis = E.major_axis ∧
    (E.offset d).ratio = E.ratio ∧ (E.offset d).start_param = E.start_param ∧
    (E.offset d).end_param = E.end_param :=
  ⟨rfl, rfl, rfl, rfl, rfl, rfl, rfl, rfl, rfl, rfl, rfl⟩

/-! ### Compositor claims -/

/-- The kept and removed counts of the compositing loop sum to the number of
page pairs, from any start index. -/
theorem compositeLoop_count {α : Type} (sel : List ℕ) (pairs : List (List α × List α)) :
    ∀ i, (compositeLoop sel i pairs).2.1 + (compositeLoop sel i pairs).2.2 = pairs.length := by
  induction pairs with
  | nil => intro i; simp [compositeLoop]
  | cons hd tl ih =>
    intro i
    obtain ⟨page, grid⟩ := hd
    have h1 := ih (i + 1)
    by_cases h : i ∈ sel
    · simp only [compositeLoop, if_pos h]
      simp only [List.length_cons]
      omega
    · simp only [compositeLoop, if_neg h]
      simp only [List.length_cons]
      omega

/-- The output of the compositing loop is the selected pairs, in order, each
merged with the grid page as the base (content drawn on top). -/
theorem compositeLoop_output {α : Type} (sel : List ℕ) (pairs : List (List α × List α)) :
    ∀ i, (compositeLoop sel i pairs).1 =
      ((pairs.enumFrom i).filter fun x => decide (x.1 ∈ sel)).map
        fun x => mergePage x.2.2 x.2.1 := by
  induction pairs with
  | nil => intro i; simp [compositeLoop]
  | cons hd tl ih =>
    intro i
    obtain ⟨page, grid⟩ := hd
    by_cases h : i ∈ sel
    · simp [compositeLoop, h, List.enumFrom, ih (i + 1)]
    · simp [compositeLoop, h, List.enumFrom, ih (i + 1)]

/-- C2, counterexample: with a single non-empty tile whose content page is
`[0]` and overlay (grid) page is `[1]`, the compositor's output page is
`mergePage [1] [0]` — the overlay is the merge base and the content stream is
drawn on top — not the claimed `mergePage [0] [1]` with the overlay on top. -/
theorem compositor_overlay_on_top_counterexample :
    (compositor [[0]] [[1]] [0]).1 ≠ [mergePage [0] [1]] := by
  decide

/-- C2 (amended): for every tile whose content page is classified non-empty
the compositor merges the content page onto the overlay page — so the content
stream, not the overlay, is drawn on top — appends the merged page in
tile-iteration order, drops empty tiles with no placeholder, and the kept and
removed counts sum to the number of candidate page pairs. -/
theorem compositor_spec {α : Type} (contentPages gridPages : List (List α)) (sel : List ℕ) :
    (compositor contentPages gridPages sel).1 =
      (((contentPages.zip gridPages).enumFrom 0).filter fun x => decide (x.1 ∈ sel)).map
        (fun x => mergePage x.2.2 x.2.1) ∧
    (compositor contentPages gridPages sel).2.1 +
        (compositor contentPages gridPages sel).2.2 =
      (contentPages.zip gridPages).length :=
  ⟨compositeLoop_output sel _ 0, compositeLoop_count sel _ 0⟩

/-! ### Ingestion claims -/

/-- Every supported (non-`other`) parsed entity is processed without an
error. -/
theorem processEntity_ok_of_not_other (st : IngestState) (e : DxfEntity)
    (h : e.isOther = false) : ∃ st', processEntity st e = .ok st' := by
  cases e with
  | line s e_ => exact ⟨_, rfl⟩
  | arc c r sa ea => exact ⟨_, rfl⟩
  | ellipse c ma ratio sp ep => exact ⟨_, rfl⟩
  | spline pts => exact ⟨_, rfl⟩
  | mtext t => exact ⟨_, rfl⟩
  | other k => simp [DxfEntity.isOther] at h

/-- C9: an MTEXT entity is skipped — the accumulator (entity list and
accumulated bounds) is returned unchanged — while an entity kind outside the
supported set raises a `ValueError` naming the kind, and that error aborts the
ingestion of any entity list containing such a kind, whatever comes after
it. -/
theorem ingestion_error_policy :
    (∀ (st : IngestState) (t : String), processEntity st (.mtext t) = .ok st) ∧
    (∀ (st : IngestState) (k : String),
      processEntity st (.other k) = .error ("Unsupported entity type: " ++ k)) ∧
    (∀ (pre : List DxfEntity) (k : String) (post : List DxfEntity) (st : IngestState),
      (∀ d ∈ pre, d.isOther = false) →
      ∃ m, ingest st (pre ++ DxfEntity.other k :: post) = .error m) := by
  refine ⟨fun st t => rfl, fun st k => rfl, ?_⟩
  intro pre
  induction pre with
  | nil =>
    intro k post st _
    exact ⟨"Unsupported entity type: " ++ k, by simp [ingest, processEntity]⟩
  | cons d rest ih =>
    intro k post st hpre
    obtain ⟨st', hst'⟩ := processEntity_ok_of_not_other st d (hpre d (by simp))
    obtain ⟨m, hm⟩ := ih k post st' fun d' hd' => hpre d' (by simp [hd'])
    exact ⟨m, by simp [ingest, hst', hm]⟩

/-- C9 witness: a lone POLYLINE entity aborts ingestion with an error. -/
theorem ingestion_error_policy_witness :
    (∀ d ∈ ([] : List DxfEntity), d.isOther = false) ∧
    ∃ m, ingest ⟨⟨⟨0, 0⟩, ⟨0, 0⟩⟩, []⟩ ([] ++ DxfEntity.other "POLYLINE" :: []) = .error m :=
  ⟨by simp, ingestion_error_policy.2.2 [] "POLYLINE" [] ⟨⟨⟨0, 0⟩, ⟨0, 0⟩⟩, []⟩ (by simp)⟩

/-! ### List fold lemmas for the min/max accumulators -/

theorem foldl_min_le_init (t : List ℝ) (i : ℝ) : t.foldl min i ≤ i := by
  induction t generalizing i with
  | nil => simp
  | cons a t ih => exact le_trans (ih (min i a)) (min_le_left i a)

theorem foldl_min_le_mem (t : List ℝ) (i x : ℝ) (hx : x ∈ t) : t.foldl min i ≤ x := by
  induction t generalizing i with
  | nil => cases hx
  | cons a t ih =>
    rcases List.mem_cons.mp hx with rfl | hx'
    · exact le_trans (foldl_min_le_init t (min i x)) (min_le_right i x)
    · exact ih (min i a) hx'

theorem le_foldl_min (t : List ℝ) (i b : ℝ) (hi : b ≤ i) (h : ∀ x ∈ t, b ≤ x) :
    b ≤ t.foldl min i := by
  induction t generalizing i with
  | nil => exact hi
  | cons a t ih =>
    exact ih (min i a) (le_min hi (h a (by simp))) fun x hx => h x (by simp [hx])

theorem init_le_foldl_max (t : List ℝ) (i : ℝ) : i ≤ t.foldl max i := by
  induction t generalizing i with
  | nil => simp
  | cons a t ih => exact le_trans (le_max_left i a) (ih (max i a))

theorem mem_le_foldl_max (t : List ℝ) (i x : ℝ) (hx : x ∈ t) : x ≤ t.foldl max i := by
  induction t generalizing i with
  | nil => cases hx
  | cons a t ih =>
    rcases List.mem_cons.mp hx with rfl | hx'
    · exact le_trans (le_max_right i x) (init_le_foldl_max t (max i x))
    · exact ih (max i a) hx'

theorem foldl_max_le (t : List ℝ) (i b : ℝ) (hi : i ≤ b) (h : ∀ x ∈ t, x ≤ b) :
    t.foldl max i ≤ b := by
  induction t generalizing i with
  | nil => exact hi
  | cons a t ih =>
    exact ih (max i a) (max_le hi (h a (by simp))) fun x hx => h x (by simp [hx])

theorem listMin_le (l : List ℝ) (x : ℝ) (hx : x ∈ l) : listMin l ≤ x := by
  cases l with
  | nil => cases hx
  | cons a t =>
    rcases List.mem_cons.mp hx with rfl | hx'
    · exact foldl_min_le_init t x
    · exact foldl_min_le_mem t a x hx'

theorem le_listMax (l : List ℝ) (x : ℝ) (hx : x ∈ l) : x ≤ listMax l := by
  cases l with
  | nil => cases hx
  | cons a t =>
    rcases List.mem_cons.mp hx with rfl | hx'
    · exact init_le_foldl_max t x
    · exact mem_le_foldl_max t a x hx'

theorem le_listMin (l : List ℝ) (b : ℝ) (hne : l ≠ []) (h : ∀ x ∈ l, b ≤ x) :
    b ≤ listMin l := by
  cases l with
  | nil => cases hne rfl
  | cons a t => exact le_foldl_min t a b (h a (by simp)) fun x hx => h x (by simp [hx])

theorem listMax_le (l : List ℝ) (b : ℝ) (hne : l ≠ []) (h : ∀ x ∈ l, x ≤ b) :
    listMax l ≤ b := by
  cases l with
  | nil => cases hne rfl
  | cons a t => exact foldl_max_le t a b (h a (by simp)) fun x hx => h x (by simp [hx])

theorem foldl_min_map_sub (t : List ℝ) (i c : ℝ) :
    (t.map fun v => v - c).foldl min (i - c) = t.foldl min i - c := by
  induction t generalizing i with
  | nil => simp
  | cons a t ih => simp only [List.map_cons, List.foldl_cons, min_sub_sub_right, ih]

theorem foldl_max_map_sub (t : List ℝ) (i c : ℝ) :
    (t.map fun v => v - c).foldl max (i - c) = t.foldl max i - c := by
  induction t generalizing i with
  | nil => simp
  | cons a t ih => simp only [List.map_cons, List.foldl_cons, max_sub_sub_right, ih]

theorem listMin_map_sub (l : List ℝ) (c : ℝ) (hne : l ≠ []) :
    listMin (l.map fun v => v - c) = listMin l - c := by
  cases l with
  | nil => cases hne rfl
  | cons a t => simpa [listMin] using foldl_min_map_sub t a c

theorem listMax_map_sub (l : List ℝ) (c : ℝ) (hne : l ≠ []) :
    listMax (l.map fun v => v - c) = listMax l - c := by
  cases l with
  | nil => cases hne rfl
  | cons a t => simpa [listMax] using foldl_max_map_sub t a c

/-! ### Offset / bounds commutation -/

theorem point_offset_neg_cancel (p d : Point ℝ) : (p.offset d).offset ⟨-d.x, -d.y⟩ = p := by
  unfold Point.offset
  apply Point.ext <;> dsimp only <;> ring

theorem Arc.offset_candAngles (A : Arc) (d : Point ℝ) :
    (A.offset d).candAngles = A.candAngles := rfl

theorem line_offset_neg_cancel (l : Line) (d : Point ℝ) :
    (l.offset d).offset ⟨-d.x, -d.y⟩ = l := by
  apply Line.ext <;> simp only [Line.offset] <;> exact point_offset_neg_cancel _ _

theorem arc_offset_neg_cancel (A : Arc) (d : Point ℝ) :
    (A.offset d).offset ⟨-d.x, -d.y⟩ = A := by
  simp only [Arc.offset, point_offset_neg_cancel]

theorem ellipse_offset_neg_cancel (E : Ellipse) (d : Point ℝ) :
    (E.offset d).offset ⟨-d.x, -d.y⟩ = E := by
  simp only [Ellipse.offset, point_offset_neg_cancel]

theorem candAngles_ne_nil (A : Arc) : A.candAngles ≠ [] := by
  simp [Arc.candAngles]

theorem line_bounds_offset (l : Line) (d : Point ℝ) :
    (l.offset d).bounds = l.bounds.offset d := by
  unfold Line.bounds Line.offset RectXY.offset Point.offset
  simp only [min_sub_sub_right, max_sub_sub_right]

theorem arc_bounds_offset (A : Arc) (d : Point ℝ) :
    (A.offset d).bounds = A.bounds.offset d := by
  have hxs : ((A.offset d).candAngles.map fun a => ((A.offset d).pointAt a).x)
      = (A.candAngles.map fun a => (A.pointAt a).x).map fun v => v - d.x := by
    rw [Arc.offset_candAngles, List.map_map]
    apply List.map_congr_left
    intro a _
    simp only [Function.comp_apply, Arc.pointAt, Arc.offset, Point.offset]
    ring
  have hys : ((A.offset d).candAngles.map fun a => ((A.offset d).pointAt a).y)
      = (A.candAngles.map fun a => (A.pointAt a).y).map fun v => v - d.y := by
    rw [Arc.offset_candAngles, List.map_map]
    apply List.map_congr_left
    intro a _
    simp only [Function.comp_apply, Arc.pointAt, Arc.offset, Point.offset]
    ring
  have hne : ∀ f : ℝ → ℝ, A.candAngles.map f ≠ [] := by
    intro f
    simp [Arc.candAngles]
  unfold Arc.bounds RectXY.offset Point.offset
  rw [hxs, hys, listMin_map_sub _ _ (hne _), listMin_map_sub _ _ (hne _),
    listMax_map_sub _ _ (hne _), listMax_map_sub _ _ (hne _)]

theorem Ellipse.offset_normStart (E : Ellipse) (d : Point ℝ) :
    (E.offset d).normStart = E.normStart := rfl

theorem Ellipse.offset_normEnd (E : Ellipse) (d : Point ℝ) :
    (E.offset d).normEnd = E.normEnd := rfl

theorem linspace_ne_nil (s e : ℝ) (n : ℕ) (hn : n ≠ 0) : linspace s e n ≠ [] := by
  simp only [linspace, ne_eq, List.map_eq_nil_iff, List.range_eq_nil]
  exact hn

theorem ellipse_bounds_offset (E : Ellipse) (d : Point ℝ) (n : ℕ) (hn : n ≠ 0) :
    (E.offset d).bounds n = (E.bounds n).offset d := by
  have hts : linspace (E.offset d).normStart (E.offset d).normEnd n
      = linspace E.normStart E.normEnd n := rfl
  have hxs : ((linspace E.normStart E.normEnd n).map fun t => ((E.offset d).pointAt t).x)
      = ((linspace E.normStart E.normEnd n).map fun t => (E.pointAt t).x).map
          fun v => v - d.x := by
    rw [List.map_map]
    apply List.map_congr_left
    intro t _
    simp only [Function.comp_apply, Ellipse.pointAt, Ellipse.semiMajor, Ellipse.theta,
      Ellipse.offset, Point.offset]
    ring
  have hys : ((linspace E.normStart E.normEnd n).map fun t => ((E.offset d).pointAt t).y)
      = ((linspace E.normStart E.normEnd n).map fun t => (E.pointAt t).y).map
          fun v => v - d.y := by
    rw [List.map_map]
    apply List.map_congr_left
    intro t _
    simp only [Function.comp_apply, Ellipse.pointAt, Ellipse.semiMajor, Ellipse.theta,
      Ellipse.offset, Point.offset]
    ring
  have hne : ∀ f : ℝ → ℝ, (linspace E.normStart E.normEnd n).map f ≠ [] := by
    intro f
    simp only [ne_eq, List.map_eq_nil_iff]
    exact linspace_ne_nil _ _ _ hn
  simp only [Ellipse.bounds, RectXY.offset, Point.offset]
  rw [hts, hxs, hys, listMin_map_sub _ _ (hne _), listMin_map_sub _ _ (hne _),
    listMax_map_sub _ _ (hne _), listMax_map_sub _ _ (hne _)]

/-- C6: offsetting any entity by `Δ` and then by `−Δ` returns it exactly to
its original value, and `bounds` commutes with `offset`:
`bounds(offset(e, Δ)) = offset(bounds(e), Δ)` for lines, arcs, and elliptical
arcs (the latter at the source's default sample count). -/
theorem entity_offset_roundtrip_and_bounds (e : Entity) (d : Point ℝ) :
    (e.offset d).offset ⟨-d.x, -d.y⟩ = e ∧ (e.offset d).bounds = e.bounds.offset d := by
  cases e with
  | line l =>
    refine ⟨?_, line_bounds_offset l d⟩
    simp only [Entity.offset, line_offset_neg_cancel]
  | arc a =>
    refine ⟨?_, arc_bounds_offset a d⟩
    simp only [Entity.offset, arc_offset_neg_cancel]
  | ellipse el =>
    refine ⟨?_, ellipse_bounds_offset el d 1000 (by norm_num)⟩
    simp only [Entity.offset, ellipse_offset_neg_cancel]

/-! ### Trigonometry in degrees, for the arc bound claims -/

theorem dcos_neg (d : ℝ) : dcos (-d) = dcos d := by
  unfold dcos
  rw [show -d * π / 180 = -(d * π / 180) by ring, Real.cos_neg]

theorem dcos_le_one (d : ℝ) : dcos d ≤ 1 := Real.cos_le_one _

theorem neg_one_le_dcos (d : ℝ) : -1 ≤ dcos d := Real.neg_one_le_cos _

theorem dcos_zero : dcos 0 = 1 := by
  unfold dcos
  norm_num

theorem dcos_one_eighty : dcos 180 = -1 := by
  unfold dcos
  rw [show (180 : ℝ) * π / 180 = π by ring, Real.cos_pi]

theorem dcos_two_seventy : dcos 270 = 0 := by
  unfold dcos
  rw [show (270 : ℝ) * π / 180 = 2 * π - π / 2 by ring, Real.cos_two_pi_sub,
    Real.cos_pi_div_two]

theorem dcos_antitone {a b : ℝ} (h0 : 0 ≤ a) (hab : a ≤ b) (h180 : b ≤ 180) :
    dcos b ≤ dcos a := by
  unfold dcos
  have hpi := Real.pi_pos
  apply Real.cos_le_cos_of_nonneg_of_le_pi
  · exact div_nonneg (mul_nonneg h0 hpi.le) (by norm_num)
  · rw [div_le_iff₀ (by norm_num : (0 : ℝ) < 180)]
    nlinarith
  · rw [div_le_div_iff (by norm_num : (0 : ℝ) < 180) (by norm_num : (0 : ℝ) < 180)]
    nlinarith

theorem dcos_monotone {a b : ℝ} (h180 : 180 ≤ a) (hab : a ≤ b) (h360 : b ≤ 360) :
    dcos a ≤ dcos b := by
  unfold dcos
  have hpi := Real.pi_pos
  rw [← Real.cos_two_pi_sub (a * π / 180), ← Real.cos_two_pi_sub (b * π / 180)]
  apply Real.cos_le_cos_of_nonneg_of_le_pi
  · have : b * π / 180 ≤ 2 * π := by
      rw [div_le_iff₀ (by norm_num : (0 : ℝ) < 180)]
      nlinarith
    linarith
  · have : π ≤ a * π / 180 := by
      rw [le_div_iff₀ (by norm_num : (0 : ℝ) < 180)]
      nlinarith
    linarith
  · have : a * π / 180 ≤ b * π / 180 := by
      rw [div_le_div_iff (by norm_num : (0 : ℝ) < 180) (by norm_num : (0 : ℝ) < 180)]
      nlinarith
    linarith

theorem dsin_eq (d : ℝ) : dsin d = dcos (d - 90) := by
  unfold dsin dcos
  rw [show (d - 90) * π / 180 = -(π / 2 - d * π / 180) by ring, Real.cos_neg,
    Real.cos_pi_div_two_sub]

theorem dsin_le_one (d : ℝ) : dsin d ≤ 1 := Real.sin_le_one _

theorem neg_one_le_dsin (d : ℝ) : -1 ≤ dsin d := Real.neg_one_le_sin _

theorem dsin_zero : dsin 0 = 0 := by
  rw [dsin_eq, show (0 : ℝ) - 90 = -90 by norm_num, dcos_neg]
  unfold dcos
  rw [show (90 : ℝ) * π / 180 = π / 2 by ring, Real.cos_pi_div_two]

theorem dsin_ninety : dsin 90 = 1 := by
  rw [dsin_eq, show (90 : ℝ) - 90 = 0 by norm_num, dcos_zero]

theorem dsin_two_seventy : dsin 270 = -1 := by
  rw [dsin_eq, show (270 : ℝ) - 90 = 180 by norm_num, dcos_one_eighty]

theorem dsin_three_sixty : dsin 360 = 0 := by
  rw [dsin_eq, show (360 : ℝ) - 90 = 270 by norm_num, dcos_two_seventy]

theorem dsin_mono_lo {a b : ℝ} (h0 : 0 ≤ a) (hab : a ≤ b) (h90 : b ≤ 90) :
    dsin a ≤ dsin b := by
  rw [dsin_eq, dsin_eq, show a - 90 = -(90 - a) by ring, show b - 90 = -(90 - b) by ring,
    dcos_neg, dcos_neg]
  exact dcos_antitone (by linarith) (by linarith) (by linarith)

theorem dsin_anti_mid {a b : ℝ} (h90 : 90 ≤ a) (hab : a ≤ b) (h270 : b ≤ 270) :
    dsin b ≤ dsin a := by
  rw [dsin_eq, dsin_eq]
  exact dcos_antitone (by linarith) (by linarith) (by linarith)

theorem dsin_mono_hi {a b : ℝ} (h270 : 270 ≤ a) (hab : a ≤ b) (h360 : b ≤ 360) :
    dsin a ≤ dsin b := by
  rw [dsin_eq, dsin_eq]
  exact dcos_monotone (by linarith) (by linarith) (by linarith)

/-! ### Candidate-angle membership for `Arc.bounds` -/

theorem start_mem_candAngles (A : Arc) : A.start_angle ∈ A.candAngles := by
  simp [Arc.candAngles]

theorem end_mem_candAngles (A : Arc) : A.end_angle ∈ A.candAngles := by
  simp [Arc.candAngles]

theorem mem_candAngles_iff (A : Arc) (c : ℝ) :
    c ∈ A.candAngles ↔
      c = A.start_angle ∨ c = A.end_angle ∨
        (c ∈ ([0, 90, 180, 270] : List ℝ) ∧ sweepTest A.start_angle A.end_angle c) := by
  unfold Arc.candAngles
  simp only [List.mem_append, List.mem_cons, List.mem_filter, List.not_mem_nil, or_false,
    decide_eq_true_eq]
  tauto

theorem sweepTest_self_start (s e : ℝ) : sweepTest s e s := by
  unfold sweepTest
  rcases le_or_lt s e with h | h
  · exact Or.inl ⟨le_refl s, h⟩
  · exact Or.inr (Or.inr ⟨h, le_refl s⟩)

theorem sweepTest_self_end (s e : ℝ) : sweepTest s e e := by
  unfold sweepTest
  rcases le_or_lt s e with h | h
  · exact Or.inl ⟨h, le_refl e⟩
  · exact Or.inr (Or.inl ⟨h, le_refl e⟩)

/-! ### The candidate set dominates the sampled trig values over the sweep -/

theorem exists_dcos_ge (s e a : ℝ) (hs0 : 0 ≤ s) (hs1 : s < 360) (he0 : 0 ≤ e)
    (he1 : e < 360) (ha0 : 0 ≤ a) (ha1 : a ≤ 360) (hsw : sweepTest s e a) :
    ∃ c, (c = s ∨ c = e ∨ (c ∈ ([0, 90, 180, 270] : List ℝ) ∧ sweepTest s e c)) ∧
      dcos a ≤ dcos c := by
  rcases hsw with ⟨hsa, hae⟩ | ⟨hw, hae⟩ | ⟨hw, hsa⟩
  · by_cases hA : a ≤ 180
    · exact ⟨s, Or.inl rfl, dcos_antitone hs0 hsa hA⟩
    · push_neg at hA
      exact ⟨e, Or.inr (Or.inl rfl),
        dcos_monotone (by linarith) hae (by linarith)⟩
  · refine ⟨0, Or.inr (Or.inr ⟨by norm_num, Or.inr (Or.inl ⟨hw, he0⟩)⟩), ?_⟩
    rw [dcos_zero]
    exact dcos_le_one a
  · refine ⟨0, Or.inr (Or.inr ⟨by norm_num, Or.inr (Or.inl ⟨hw, he0⟩)⟩), ?_⟩
    rw [dcos_zero]
    exact dcos_le_one a

theorem exists_dcos_le (s e a : ℝ) (hs0 : 0 ≤ s) (hs1 : s < 360) (he0 : 0 ≤ e)
    (he1 : e < 360) (ha0 : 0 ≤ a) (ha1 : a ≤ 360) (hsw : sweepTest s e a) :
    ∃ c, (c = s ∨ c = e ∨ (c ∈ ([0, 90, 180, 270] : List ℝ) ∧ sweepTest s e c)) ∧
      dcos c ≤ dcos a := by
  rcases hsw with ⟨hsa, hae⟩ | ⟨hw, hae⟩ | ⟨hw, hsa⟩
  · by_cases h1 : s ≤ 180 ∧ 180 ≤ e
    · refine ⟨180, Or.inr (Or.inr ⟨by norm_num, Or.inl ⟨h1.1, h1.2⟩⟩), ?_⟩
      rw [dcos_one_eighty]
      exact neg_one_le_dcos a
    · by_cases hs : s ≤ 180
      · have he' : e < 180 := by
          rcases not_and_or.mp h1 with h | h
          · exact absurd hs h
          · exact lt_of_not_le h
        exact ⟨e, Or.inr (Or.inl rfl), dcos_antitone ha0 hae (by linarith)⟩
      · push_neg at hs
        exact ⟨s, Or.inl rfl, dcos_monotone (by linarith) hsa ha1⟩
  · by_cases h180 : 180 ≤ e
    · refine ⟨180, Or.inr (Or.inr ⟨by norm_num, Or.inr (Or.inl ⟨hw, h180⟩)⟩), ?_⟩
      rw [dcos_one_eighty]
      exact neg_one_le_dcos a
    · push_neg at h180
      exact ⟨e, Or.inr (Or.inl rfl), dcos_antitone ha0 hae (by linarith)⟩
  · by_cases h180 : s ≤ 180
    · refine ⟨180, Or.inr (Or.inr ⟨by norm_num, Or.inr (Or.inr ⟨hw, h180⟩)⟩), ?_⟩
      rw [dcos_one_eighty]
      exact neg_one_le_dcos a
    · push_neg at h180
      exact ⟨s, Or.inl rfl, dcos_monotone (by linarith) hsa ha1⟩

theorem exists_dsin_ge (s e a : ℝ) (hs0 : 0 ≤ s) (hs1 : s < 360) (he0 : 0 ≤ e)
    (he1 : e < 360) (ha0 : 0 ≤ a) (ha1 : a ≤ 360) (hsw : sweepTest s e a) :
    ∃ c, (c = s ∨ c = e ∨ (c ∈ ([0, 90, 180, 270] : List ℝ) ∧ sweepTest s e c)) ∧
      dsin a ≤ dsin c := by
  rcases hsw with ⟨hsa, hae⟩ | ⟨hw, hae⟩ | ⟨hw, hsa⟩
  · by_cases h1 : s ≤ 90 ∧ 90 ≤ e
    · refine ⟨90, Or.inr (Or.inr ⟨by norm_num, Or.inl ⟨h1.1, h1.2⟩⟩), ?_⟩
      rw [dsin_ninety]
      exact dsin_le_one a
    · by_cases hs : s ≤ 90
      · have he' : e < 90 := by
          rcases not_and_or.mp h1 with h | h
          · exact absurd hs h
          · exact lt_of_not_le h
        exact ⟨e, Or.inr (Or.inl rfl), dsin_mono_lo ha0 hae (by linarith)⟩
      · push_neg at hs
        by_cases ha270 : a ≤ 270
        · exact ⟨s, Or.inl rfl, dsin_anti_mid (by linarith) hsa ha270⟩
        · push_neg at ha270
          exact ⟨e, Or.inr (Or.inl rfl), dsin_mono_hi (by linarith) hae (by linarith)⟩
  · by_cases h90 : 90 ≤ e
    · refine ⟨90, Or.inr (Or.inr ⟨by norm_num, Or.inr (Or.inl ⟨hw, h90⟩)⟩), ?_⟩
      rw [dsin_ninety]
      exact dsin_le_one a
    · push_neg at h90
      exact ⟨e, Or.inr (Or.inl rfl), dsin_mono_lo ha0 hae (by linarith)⟩
  · by_cases h90 : s ≤ 90
    · refine ⟨90, Or.inr (Or.inr ⟨by norm_num, Or.inr (Or.inr ⟨hw, h90⟩)⟩), ?_⟩
      rw [dsin_ninety]
      exact dsin_le_one a
    · push_neg at h90
      by_cases ha270 : a ≤ 270
      · exact ⟨s, Or.inl rfl, dsin_anti_mid (by linarith) hsa ha270⟩
      · push_neg at ha270
        refine ⟨0, Or.inr (Or.inr ⟨by norm_num, Or.inr (Or.inl ⟨hw, he0⟩)⟩), ?_⟩
        have h36 : dsin a ≤ dsin 360 := dsin_mono_hi (by linarith) ha1 (le_refl 360)
        rw [dsin_three_sixty] at h36
        rw [dsin_zero]
        exact h36

theorem exists_dsin_le (s e a : ℝ) (hs0 : 0 ≤ s) (hs1 : s < 360) (he0 : 0 ≤ e)
    (he1 : e < 360) (ha0 : 0 ≤ a) (ha1 : a ≤ 360) (hsw : sweepTest s e a) :
    ∃ c, (c = s ∨ c = e ∨ (c ∈ ([0, 90, 180, 270] : List ℝ) ∧ sweepTest s e c)) ∧
      dsin c ≤ dsin a := by
  rcases hsw with ⟨hsa, hae⟩ | ⟨hw, hae⟩ | ⟨hw, hsa⟩
  · by_cases h1 : s ≤ 270 ∧ 270 ≤ e
    · refine ⟨270, Or.inr (Or.inr ⟨by norm_num, Or.inl ⟨h1.1, h1.2⟩⟩), ?_⟩
      rw [dsin_two_seventy]
      exact neg_one_le_dsin a
    · by_cases hs : s ≤ 270
      · have he' : e < 270 := by
          rcases not_and_or.mp h1 with h | h
          · exact absurd hs h
          · exact lt_of_not_le h
        by_cases ha90 : a ≤ 90
        · exact ⟨s, Or.inl rfl, dsin_mono_lo hs0 hsa ha90⟩
        · push_neg at ha90
          exact ⟨e, Or.inr (Or.inl rfl), dsin_anti_mid (by linarith) hae (by linarith)⟩
      · push_neg at hs
        exact ⟨s, Or.inl rfl, dsin_mono_hi (by linarith) hsa ha1⟩
  · by_cases h270 : 270 ≤ e
    · refine ⟨270, Or.inr (Or.inr ⟨by norm_num, Or.inr (Or.inl ⟨hw, h270⟩)⟩), ?_⟩
      rw [dsin_two_seventy]
      exact neg_one_le_dsin a
    · push_neg at h270
      by_cases ha90 : a ≤ 90
      · refine ⟨0, Or.inr (Or.inr ⟨by norm_num, Or.inr (Or.inl ⟨hw, he0⟩)⟩), ?_⟩
        rw [dsin_zero, show (0 : ℝ) = dsin 0 from dsin_zero.symm]
        rw [dsin_zero]
        exact dsin_zero ▸ dsin_mono_lo (le_refl 0) ha0 ha90
      · push_neg at ha90
        exact ⟨e, Or.inr (Or.inl rfl), dsin_anti_mid (by linarith) hae (by linarith)⟩
  · by_cases h270 : s ≤ 270
    · refine ⟨270, Or.inr (Or.inr ⟨by norm_num, Or.inr (Or.inr ⟨hw, h270⟩)⟩), ?_⟩
      rw [dsin_two_seventy]
      exact neg_one_le_dsin a
    · push_neg at h270
      exact ⟨s, Or.inl rfl, dsin_mono_hi (by linarith) hsa ha1⟩

/-- C3: for every arc with nonnegative radius and start/end angles in
`[0, 360)`, and every angle `a` within the arc's sweep (wrap-aware, as decided
by the source's own sweep test), the sample point
`(center.x + r*cos a, center.y + r*sin a)` lies inside the rectangle returned
by `Arc.bounds`; moreover both endpoint angles are always among the candidate
samples, and a cardinal angle is a candidate iff it passes the wrap-aware
sweep test. -/
theorem arc_bounds_cover (A : Arc) (a : ℝ) (hr : 0 ≤ A.r)
    (hs0 : 0 ≤ A.start_angle) (hs1 : A.start_angle < 360)
    (he0 : 0 ≤ A.end_angle) (he1 : A.end_angle < 360)
    (ha0 : 0 ≤ a) (ha1 : a ≤ 360)
    (hsw : sweepTest A.start_angle A.end_angle a) :
    A.bounds.containsPt (A.pointAt a) ∧
    A.start_angle ∈ A.candAngles ∧ A.end_angle ∈ A.candAngles ∧
    ∀ c ∈ ([0, 90, 180, 270] : List ℝ),
      (c ∈ A.candAngles ↔ sweepTest A.start_angle A.end_angle c) := by
  obtain ⟨c1, hc1, hle1⟩ :=
    exists_dcos_le A.start_angle A.end_angle a hs0 hs1 he0 he1 ha0 ha1 hsw
  obtain ⟨c2, hc2, hge2⟩ :=
    exists_dcos_ge A.start_angle A.end_angle a hs0 hs1 he0 he1 ha0 ha1 hsw
  obtain ⟨c3, hc3, hle3⟩ :=
    exists_dsin_le A.start_angle A.end_angle a hs0 hs1 he0 he1 ha0 ha1 hsw
  obtain ⟨c4, hc4, hge4⟩ :=
    exists_dsin_ge A.start_angle A.end_angle a hs0 hs1 he0 he1 ha0 ha1 hsw
  have m1 : c1 ∈ A.candAngles := (mem_candAngles_iff A c1).mpr hc1
  have m2 : c2 ∈ A.candAngles := (mem_candAngles_iff A c2).mpr hc2
  have m3 : c3 ∈ A.candAngles := (mem_candAngles_iff A c3).mpr hc3
  have m4 : c4 ∈ A.candAngles := (mem_candAngles_iff A c4).mpr hc4
  refine ⟨⟨?_, ?_, ?_, ?_⟩, start_mem_candAngles A, end_mem_candAngles A, ?_⟩
  · show listMin (A.candAngles.map fun t => (A.pointAt t).x) ≤ (A.pointAt a).x
    refine le_trans (listMin_le _ _ (List.mem_map_of_mem _ m1)) ?_
    show A.center.x + A.r * dcos c1 ≤ A.center.x + A.r * dcos a
    exact add_le_add_left (mul_le_mul_of_nonneg_left hle1 hr) _
  · show (A.pointAt a).x ≤ listMax (A.candAngles.map fun t => (A.pointAt t).x)
    refine le_trans ?_ (le_listMax _ _ (List.mem_map_of_mem _ m2))
    show A.center.x + A.r * dcos a ≤ A.center.x + A.r * dcos c2
    exact add_le_add_left (mul_le_mul_of_nonneg_left hge2 hr) _
  · show listMin (A.candAngles.map fun t => (A.pointAt t).y) ≤ (A.pointAt a).y
    refine le_trans (listMin_le _ _ (List.mem_map_of_mem _ m3)) ?_
    show A.center.y + A.r * dsin c3 ≤ A.center.y + A.r * dsin a
    exact add_le_add_left (mul_le_mul_of_nonneg_left hle3 hr) _
  · show (A.pointAt a).y ≤ listMax (A.candAngles.map fun t => (A.pointAt t).y)
    refine le_trans ?_ (le_listMax _ _ (List.mem_map_of_mem _ m4))
    show A.center.y + A.r * dsin a ≤ A.center.y + A.r * dsin c4
    exact add_le_add_left (mul_le_mul_of_nonneg_left hge4 hr) _
  · intro c hc
    constructor
    · intro hmem
      rcases (mem_candAngles_iff A c).mp hmem with rfl | rfl | h
      · exact sweepTest_self_start _ _
      · exact sweepTest_self_end _ _
      · exact h.2
    · intro hsweep
      exact (mem_candAngles_iff A c).mpr (Or.inr (Or.inr ⟨hc, hsweep⟩))

/-- C3 witness: the quarter arc from 0° to 90° of the unit circle at the
origin contains its 45° sample point. -/
theorem arc_bounds_cover_witness :
    (0 : ℝ) ≤ (Arc.mk ⟨0, 0⟩ 1 0 90).r ∧ sweepTest 0 90 45 ∧
      (Arc.mk ⟨0, 0⟩ 1 0 90).bounds.containsPt ((Arc.mk ⟨0, 0⟩ 1 0 90).pointAt 45) := by
  refine ⟨by norm_num, ?_, ?_⟩
  · unfold sweepTest
    norm_num
  · refine (arc_bounds_cover (Arc.mk ⟨0, 0⟩ 1 0 90) 45 (by norm_num) (by norm_num)
      (by norm_num) (by norm_num) (by norm_num) (by norm_num) (by norm_num) ?_).1
    unfold sweepTest
    norm_num

/-! ### Parameter normalization and sampling facts for `Ellipse.bounds` -/

theorem fmod_nonneg (x m : ℝ) (hm : 0 < m) : 0 ≤ fmod x m := by
  unfold fmod
  have h := Int.floor_le (x / m)
  have h2 : m * ((⌊x / m⌋ : ℤ) : ℝ) ≤ m * (x / m) := mul_le_mul_of_nonneg_left h hm.le
  have h3 : m * (x / m) = x := by field_simp
  linarith

theorem fmod_lt (x m : ℝ) (hm : 0 < m) : fmod x m < m := by
  unfold fmod
  have h := Int.lt_floor_add_one (x / m)
  have h2 : m * (x / m) < m * (((⌊x / m⌋ : ℤ) : ℝ) + 1) := mul_lt_mul_of_pos_left h hm
  have h3 : m * (x / m) = x := by field_simp
  have h4 : m * (((⌊x / m⌋ : ℤ) : ℝ) + 1) = m * ((⌊x / m⌋ : ℤ) : ℝ) + m := by ring
  linarith

theorem fmod_add_int_mul (x m : ℝ) (k : ℤ) (hm : m ≠ 0) :
    fmod (x + m * k) m = fmod x m := by
  unfold fmod
  have h : (x + m * k) / m = x / m + k := by
    field_simp
    ring
  rw [h, Int.floor_add_int]
  push_cast
  ring

theorem normStart_nonneg (E : Ellipse) : 0 ≤ E.normStart :=
  fmod_nonneg _ _ Real.two_pi_pos

theorem normStart_lt_two_pi (E : Ellipse) : E.normStart < 2 * π :=
  fmod_lt _ _ Real.two_pi_pos

theorem normStart_le_normEnd (E : Ellipse) : E.normStart ≤ E.normEnd := by
  have h1 := fmod_nonneg E.end_param (2 * π) Real.two_pi_pos
  have h2 := normStart_lt_two_pi E
  simp only [Ellipse.normEnd]
  by_cases h : fmod E.end_param (2 * π) ≤ E.normStart
  · rw [if_pos h]
    linarith
  · rw [if_neg h]
    push_neg at h
    linarith

theorem linspace_mem_Icc (s e : ℝ) (n : ℕ) (hse : s ≤ e) (t : ℝ)
    (ht : t ∈ linspace s e n) : s ≤ t ∧ t ≤ e := by
  unfold linspace at ht
  obtain ⟨k, hk, rfl⟩ := List.mem_map.mp ht
  rw [List.mem_range] at hk
  rcases Nat.lt_or_ge n 2 with h2 | h2
  · have hn1 : n = 1 := by omega
    have hk0 : k = 0 := by omega
    subst hn1
    subst hk0
    norm_num
    exact hse
  · have hcast : (k : ℝ) + 1 ≤ (n : ℝ) := by exact_mod_cast hk
    have hn1 : (1 : ℝ) ≤ (n : ℝ) - 1 := by
      have : (2 : ℝ) ≤ (n : ℝ) := by exact_mod_cast h2
      linarith
    constructor
    · have h0 : 0 ≤ (e - s) * (k : ℝ) / ((n : ℝ) - 1) :=
        div_nonneg (mul_nonneg (by linarith) (Nat.cast_nonneg k)) (by linarith)
      linarith
    · have hle : (e - s) * (k : ℝ) / ((n : ℝ) - 1) ≤ e - s := by
        rw [div_le_iff₀ (by linarith : (0 : ℝ) < (n : ℝ) - 1)]
        nlinarith
      linarith

/-- The set of x-coordinates attained by the parametric ellipse point over the
whole normalized sweep. -/
noncomputable def Ellipse.sweepX (E : Ellipse) : Set ℝ :=
  Set.image (fun t => (E.pointAt t).x) (Set.Icc E.normStart E.normEnd)

/-- The set of y-coordinates attained over the whole normalized sweep. -/
noncomputable def Ellipse.sweepY (E : Ellipse) : Set ℝ :=
  Set.image (fun t => (E.pointAt t).y) (Set.Icc E.normStart E.normEnd)

/-- The true bounding rectangle of the swept elliptical arc: the exact
infima and suprema of the attained coordinates. -/
noncomputable def Ellipse.trueRect (E : Ellipse) : RectXY ℝ :=
  ⟨⟨sInf E.sweepX, sInf E.sweepY⟩, ⟨sSup E.sweepX, sSup E.sweepY⟩⟩

theorem lin_trig_le (A B C t : ℝ) : A * Real.cos t + B * Real.sin t + C ≤ |A| + |B| + C := by
  have h1 : A * Real.cos t ≤ |A| := by
    calc A * Real.cos t ≤ |A * Real.cos t| := le_abs_self _
    _ = |A| * |Real.cos t| := abs_mul _ _
    _ ≤ |A| * 1 := mul_le_mul_of_nonneg_left (Real.abs_cos_le_one t) (abs_nonneg A)
    _ = |A| := mul_one _
  have h2 : B * Real.sin t ≤ |B| := by
    calc B * Real.sin t ≤ |B * Real.sin t| := le_abs_self _
    _ = |B| * |Real.sin t| := abs_mul _ _
    _ ≤ |B| * 1 := mul_le_mul_of_nonneg_left (Real.abs_sin_le_one t) (abs_nonneg B)
    _ = |B| := mul_one _
  linarith

theorem neg_lin_trig_le (A B C t : ℝ) :
    -|A| - |B| + C ≤ A * Real.cos t + B * Real.sin t + C := by
  have h1 : -|A| ≤ A * Real.cos t := by
    have ha : |A * Real.cos t| ≤ |A| := by
      calc |A * Real.cos t| = |A| * |Real.cos t| := abs_mul _ _
      _ ≤ |A| * 1 := mul_le_mul_of_nonneg_left (Real.abs_cos_le_one t) (abs_nonneg A)
      _ = |A| := mul_one _
    have := neg_abs_le (A * Real.cos t)
    linarith
  have h2 : -|B| ≤ B * Real.sin t := by
    have hb : |B * Real.sin t| ≤ |B| := by
      calc |B * Real.sin t| = |B| * |Real.sin t| := abs_mul _ _
      _ ≤ |B| * 1 := mul_le_mul_of_nonneg_left (Real.abs_sin_le_one t) (abs_nonneg B)
      _ = |B| := mul_one _
    have := neg_abs_le (B * Real.sin t)
    linarith
  linarith

theorem pointAt_x_le (E : Ellipse) (t : ℝ) :
    (E.pointAt t).x ≤ |E.semiMajor * Real.cos E.theta| +
      |E.semiMajor * E.ratio * Real.sin E.theta| + E.center.x := by
  have h := lin_trig_le (E.semiMajor * Real.cos E.theta)
    (-(E.semiMajor * E.ratio * Real.sin E.theta)) E.center.x t
  rw [abs_neg] at h
  calc (E.pointAt t).x
      = E.semiMajor * Real.cos E.theta * Real.cos t +
        -(E.semiMajor * E.ratio * Real.sin E.theta) * Real.sin t + E.center.x := by
        unfold Ellipse.pointAt
        dsimp only
        ring
  _ ≤ _ := h

theorem le_pointAt_x (E : Ellipse) (t : ℝ) :
    -|E.semiMajor * Real.cos E.theta| - |E.semiMajor * E.ratio * Real.sin E.theta|
      + E.center.x ≤ (E.pointAt t).x := by
  have h := neg_lin_trig_le (E.semiMajor * Real.cos E.theta)
    (-(E.semiMajor * E.ratio * Real.sin E.theta)) E.center.x t
  rw [abs_neg] at h
  calc -|E.semiMajor * Real.cos E.theta| - |E.semiMajor * E.ratio * Real.sin E.theta|
        + E.center.x
      ≤ E.semiMajor * Real.cos E.theta * Real.cos t +
        -(E.semiMajor * E.ratio * Real.sin E.theta) * Real.sin t + E.center.x := h
  _ = (E.pointAt t).x := by
        unfold Ellipse.pointAt
        dsimp only
        ring

theorem pointAt_y_le (E : Ellipse) (t : ℝ) :
    (E.pointAt t).y ≤ |E.semiMajor * Real.sin E.theta| +
      |E.semiMajor * E.ratio * Real.cos E.theta| + E.center.y := by
  have h := lin_trig_le (E.semiMajor * Real.sin E.theta)
    (E.semiMajor * E.ratio * Real.cos E.theta) E.center.y t
  calc (E.pointAt t).y
      = E.semiMajor * Real.sin E.theta * Real.cos t +
        E.semiMajor * E.ratio * Real.cos E.theta * Real.sin t + E.center.y := by
        unfold Ellipse.pointAt
        dsimp only
        ring
  _ ≤ _ := h

theorem le_pointAt_y (E : Ellipse) (t : ℝ) :
    -|E.semiMajor * Real.sin E.theta| - |E.semiMajor * E.ratio * Real.cos E.theta|
      + E.center.y ≤ (E.pointAt t).y := by
  have h := neg_lin_trig_le (E.semiMajor * Real.sin E.theta)
    (E.semiMajor * E.ratio * Real.cos E.theta) E.center.y t
  calc -|E.semiMajor * Real.sin E.theta| - |E.semiMajor * E.ratio * Real.cos E.theta|
        + E.center.y
      ≤ E.semiMajor * Real.sin E.theta * Real.cos t +
        E.semiMajor * E.ratio * Real.cos E.theta * Real.sin t + E.center.y := h
  _ = (E.pointAt t).y := by
        unfold Ellipse.pointAt
        dsimp only
        ring

theorem sweepX_bddAbove (E : Ellipse) : BddAbove E.sweepX := by
  refine ⟨|E.semiMajor * Real.cos E.theta| + |E.semiMajor * E.ratio * Real.sin E.theta|
    + E.center.x, ?_⟩
  rintro v ⟨t, -, rfl⟩
  exact pointAt_x_le E t

theorem sweepX_bddBelow (E : Ellipse) : BddBelow E.sweepX := by
  refine ⟨-|E.semiMajor * Real.cos E.theta| - |E.semiMajor * E.ratio * Real.sin E.theta|
    + E.center.x, ?_⟩
  rintro v ⟨t, -, rfl⟩
  exact le_pointAt_x E t

theorem sweepY_bddAbove (E : Ellipse) : BddAbove E.sweepY := by
  refine ⟨|E.semiMajor * Real.sin E.theta| + |E.semiMajor * E.ratio * Real.cos E.theta|
    + E.center.y, ?_⟩
  rintro v ⟨t, -, rfl⟩
  exact pointAt_y_le E t

theorem sweepY_bddBelow (E : Ellipse) : BddBelow E.sweepY := by
  refine ⟨-|E.semiMajor * Real.sin E.theta| - |E.semiMajor * E.ratio * Real.cos E.theta|
    + E.center.y, ?_⟩
  rintro v ⟨t, -, rfl⟩
  exact le_pointAt_y E t

/-- For every sample count at least 1, the sampled rectangle is contained in
the true bounding rectangle of the swept arc — each of the four extrema never
overestimates the arc's true extremum. -/
theorem sampled_rect_subset_trueRect (E : Ellipse) (n : ℕ) (hn : n ≠ 0) :
    E.trueRect.bl.x ≤ (E.bounds n).bl.x ∧ (E.bounds n).tr.x ≤ E.trueRect.tr.x ∧
    E.trueRect.bl.y ≤ (E.bounds n).bl.y ∧ (E.bounds n).tr.y ≤ E.trueRect.tr.y := by
  have hse := normStart_le_normEnd E
  have hneX : (linspace E.normStart E.normEnd n).map (fun t => (E.pointAt t).x) ≠ [] := by
    simp only [ne_eq, List.map_eq_nil_iff]
    exact linspace_ne_nil _ _ _ hn
  have hneY : (linspace E.normStart E.normEnd n).map (fun t => (E.pointAt t).y) ≠ [] := by
    simp only [ne_eq, List.map_eq_nil_iff]
    exact linspace_ne_nil _ _ _ hn
  refine ⟨?_, ?_, ?_, ?_⟩
  · show sInf E.sweepX ≤
      listMin ((linspace E.normStart E.normEnd n).map fun t => (E.pointAt t).x)
    refine le_listMin _ _ hneX ?_
    intro v hv
    obtain ⟨t, ht, rfl⟩ := List.mem_map.mp hv
    have hIcc := linspace_mem_Icc _ _ _ hse t ht
    exact csInf_le (sweepX_bddBelow E)
      (Set.mem_image_of_mem _ (Set.mem_Icc.mpr ⟨hIcc.1, hIcc.2⟩))
  · show listMax ((linspace E.normStart E.normEnd n).map fun t => (E.pointAt t).x) ≤
      sSup E.sweepX
    refine listMax_le _ _ hneX ?_
    intro v hv
    obtain ⟨t, ht, rfl⟩ := List.mem_map.mp hv
    have hIcc := linspace_mem_Icc _ _ _ hse t ht
    exact le_csSup (sweepX_bddAbove E)
      (Set.mem_image_of_mem _ (Set.mem_Icc.mpr ⟨hIcc.1, hIcc.2⟩))
  · show sInf E.sweepY ≤
      listMin ((linspace E.normStart E.normEnd n).map fun t => (E.pointAt t).y)
    refine le_listMin _ _ hneY ?_
    intro v hv
    obtain ⟨t, ht, rfl⟩ := List.mem_map.mp hv
    have hIcc := linspace_mem_Icc _ _ _ hse t ht
    exact csInf_le (sweepY_bddBelow E)
      (Set.mem_image_of_mem _ (Set.mem_Icc.mpr ⟨hIcc.1, hIcc.2⟩))
  · show listMax ((linspace E.normStart E.normEnd n).map fun t => (E.pointAt t).y) ≤
      sSup E.sweepY
    refine listMax_le _ _ hneY ?_
    intro v hv
    obtain ⟨t, ht, rfl⟩ := List.mem_map.mp hv
    have hIcc := linspace_mem_Icc _ _ _ hse t ht
    exact le_csSup (sweepY_bddAbove E)
      (Set.mem_image_of_mem _ (Set.mem_Icc.mpr ⟨hIcc.1, hIcc.2⟩))

/-! ### Convergence of the sampled extrema to the true extrema -/

theorem linspace_net (s e : ℝ) (hse : s ≤ e) (t0 : ℝ) (ht0 : t0 ∈ Set.Icc s e) (n : ℕ)
    (hn : 2 ≤ n) :
    ∃ k ∈ List.range n,
      |s + (e - s) * (k : ℝ) / ((n : ℝ) - 1) - t0| ≤ (e - s) / ((n : ℝ) - 1) := by
  have hn1 : (0 : ℝ) < (n : ℝ) - 1 := by
    have : (2 : ℝ) ≤ (n : ℝ) := by exact_mod_cast hn
    linarith
  obtain ⟨ht0l, ht0r⟩ := ht0
  rcases eq_or_lt_of_le hse with heq | hlt
  · refine ⟨0, List.mem_range.mpr (by omega), ?_⟩
    have ht0s : t0 = s := le_antisymm (heq ▸ ht0r) ht0l
    rw [ht0s, ← heq]
    simp
  · set q := (t0 - s) * ((n : ℝ) - 1) / (e - s) with hqdef
    have hq0 : 0 ≤ q := div_nonneg (mul_nonneg (by linarith) hn1.le) (by linarith)
    have hqle : q ≤ (n : ℝ) - 1 := by
      rw [hqdef, div_le_iff₀ (by linarith)]
      nlinarith
    have hflq := Int.floor_le q
    have hqfl := Int.lt_floor_add_one q
    have hfl : ((⌊q⌋.toNat : ℕ) : ℝ) = ((⌊q⌋ : ℤ) : ℝ) := by
      norm_cast
      exact Int.toNat_of_nonneg (Int.floor_nonneg.mpr hq0)
    refine ⟨⌊q⌋.toNat, ?_, ?_⟩
    · rw [List.mem_range]
      have h2 : (⌊q⌋ : ℝ) ≤ (n : ℝ) - 1 := le_trans hflq hqle
      have h3 : ⌊q⌋ ≤ (n : ℤ) - 1 := by exact_mod_cast h2
      omega
    · have hes : e - s ≠ 0 := ne_of_gt (by linarith)
      have hn1' : (n : ℝ) - 1 ≠ 0 := ne_of_gt hn1
      have ht0eq : t0 = s + (e - s) * q / ((n : ℝ) - 1) := by
        rw [hqdef]
        field_simp
      rw [hfl, ht0eq]
      have hexp : s + (e - s) * ((⌊q⌋ : ℤ) : ℝ) / ((n : ℝ) - 1) -
          (s + (e - s) * q / ((n : ℝ) - 1)) =
            (e - s) * (((⌊q⌋ : ℤ) : ℝ) - q) / ((n : ℝ) - 1) := by
        ring
      rw [hexp, abs_div, abs_mul, abs_of_pos (show (0 : ℝ) < e - s by linarith),
        abs_of_pos hn1]
      have habs : |((⌊q⌋ : ℤ) : ℝ) - q| ≤ 1 := by
        rw [abs_le]
        constructor <;> linarith
      calc (e - s) * |((⌊q⌋ : ℤ) : ℝ) - q| / ((n : ℝ) - 1)
          ≤ (e - s) * 1 / ((n : ℝ) - 1) := by
            apply (div_le_div_right hn1).mpr
            exact mul_le_mul_of_nonneg_left habs (by linarith)
      _ = (e - s) / ((n : ℝ) - 1) := by ring

theorem mesh_eventually_lt (s e δ : ℝ) (hδ : 0 < δ) :
    ∃ N : ℕ, ∀ n ≥ N, (e - s) / ((n : ℝ) - 1) < δ := by
  refine ⟨⌈(e - s) / δ⌉.toNat + 2, ?_⟩
  intro n hn
  have h2 : (2 : ℕ) ≤ n := by omega
  have hn1 : (0 : ℝ) < (n : ℝ) - 1 := by
    have : (2 : ℝ) ≤ (n : ℝ) := by exact_mod_cast h2
    linarith
  rw [div_lt_iff₀ hn1]
  have hq : (e - s) / δ ≤ ((⌈(e - s) / δ⌉.toNat : ℕ) : ℝ) := by
    rcases le_or_lt ((e - s) / δ) 0 with h | h
    · exact le_trans h (Nat.cast_nonneg _)
    · have h1 := Int.le_ceil ((e - s) / δ)
      have hcnn : ((⌈(e - s) / δ⌉.toNat : ℕ) : ℝ) = ((⌈(e - s) / δ⌉ : ℤ) : ℝ) := by
        norm_cast
        exact Int.toNat_of_nonneg (Int.ceil_nonneg h.le)
      rw [hcnn]
      exact h1
  have hcast : ((⌈(e - s) / δ⌉.toNat + 2 : ℕ) : ℝ) ≤ (n : ℝ) := by exact_mod_cast hn
  push_cast at hcast
  have h3 : (e - s) / δ + 1 ≤ (n : ℝ) - 1 := by linarith
  have h4 : δ * ((e - s) / δ + 1) ≤ δ * ((n : ℝ) - 1) := mul_le_mul_of_nonneg_left h3 hδ.le
  have h5 : δ * ((e - s) / δ + 1) = (e - s) + δ := by
    field_simp
  linarith

theorem tendsto_listMax_linspace (f : ℝ → ℝ) (hf : Continuous f) (s e : ℝ) (hse : s ≤ e)
    (hB : BddAbove (Set.image f (Set.Icc s e))) :
    Filter.Tendsto (fun n : ℕ => listMax ((linspace s e n).map f)) Filter.atTop
      (nhds (sSup (Set.image f (Set.Icc s e)))) := by
  rw [Metric.tendsto_atTop]
  intro ε hε
  have hne : (Set.image f (Set.Icc s e)).Nonempty :=
    ⟨f s, Set.mem_image_of_mem f (Set.mem_Icc.mpr ⟨le_refl s, hse⟩)⟩
  obtain ⟨v, hvmem, hvlt⟩ := exists_lt_of_lt_csSup hne
    (show sSup (Set.image f (Set.Icc s e)) - ε / 2 < sSup (Set.image f (Set.Icc s e)) by
      linarith)
  obtain ⟨t0, ht0, rfl⟩ := hvmem
  obtain ⟨δ, hδ, hδp⟩ := Metric.continuousAt_iff.mp hf.continuousAt (ε / 2) (by linarith)
  obtain ⟨N, hN⟩ := mesh_eventually_lt s e δ hδ
  refine ⟨max N 2, ?_⟩
  intro n hn
  have hn2 : (2 : ℕ) ≤ n := le_trans (le_max_right N 2) hn
  have hnN : N ≤ n := le_trans (le_max_left N 2) hn
  have hmesh := hN n hnN
  have hneL : (linspace s e n).map f ≠ [] := by
    simp only [ne_eq, List.map_eq_nil_iff]
    exact linspace_ne_nil s e n (by omega)
  have hub : listMax ((linspace s e n).map f) ≤ sSup (Set.image f (Set.Icc s e)) := by
    refine listMax_le _ _ hneL ?_
    intro x hx
    obtain ⟨t, ht, rfl⟩ := List.mem_map.mp hx
    have hIcc := linspace_mem_Icc s e n hse t ht
    exact le_csSup hB (Set.mem_image_of_mem f (Set.mem_Icc.mpr hIcc))
  obtain ⟨k, hk, hkd⟩ := linspace_net s e hse t0 ht0 n hn2
  have hd : dist (s + (e - s) * (k : ℝ) / ((n : ℝ) - 1)) t0 < δ := by
    rw [Real.dist_eq]
    exact lt_of_le_of_lt hkd hmesh
  have hfd := hδp hd
  rw [Real.dist_eq] at hfd
  have hfd2 := abs_lt.mp hfd
  have hmem : f (s + (e - s) * (k : ℝ) / ((n : ℝ) - 1)) ∈ (linspace s e n).map f := by
    apply List.mem_map_of_mem
    unfold linspace
    exact List.mem_map_of_mem _ hk
  have hlb := le_listMax _ _ hmem
  rw [Real.dist_eq, abs_lt]
  constructor
  · linarith [hfd2.1]
  · linarith

theorem tendsto_listMin_linspace (f : ℝ → ℝ) (hf : Continuous f) (s e : ℝ) (hse : s ≤ e)
    (hB : BddBelow (Set.image f (Set.Icc s e))) :
    Filter.Tendsto (fun n : ℕ => listMin ((linspace s e n).map f)) Filter.atTop
      (nhds (sInf (Set.image f (Set.Icc s e)))) := by
  rw [Metric.tendsto_atTop]
  intro ε hε
  have hne : (Set.image f (Set.Icc s e)).Nonempty :=
    ⟨f s, Set.mem_image_of_mem f (Set.mem_Icc.mpr ⟨le_refl s, hse⟩)⟩
  obtain ⟨v, hvmem, hvlt⟩ := exists_lt_of_csInf_lt hne
    (show sInf (Set.image f (Set.Icc s e)) < sInf (Set.image f (Set.Icc s e)) + ε / 2 by
      linarith)
  obtain ⟨t0, ht0, rfl⟩ := hvmem
  obtain ⟨δ, hδ, hδp⟩ := Metric.continuousAt_iff.mp hf.continuousAt (ε / 2) (by linarith)
  obtain ⟨N, hN⟩ := mesh_eventually_lt s e δ hδ
  refine ⟨max N 2, ?_⟩
  intro n hn
  have hn2 : (2 : ℕ) ≤ n := le_trans (le_max_right N 2) hn
  have hnN : N ≤ n := le_trans (le_max_left N 2) hn
  have hmesh := hN n hnN
  have hneL : (linspace s e n).map f ≠ [] := by
    simp only [ne_eq, List.map_eq_nil_iff]
    exact linspace_ne_nil s e n (by omega)
  have hlbAll : sInf (Set.image f (Set.Icc s e)) ≤ listMin ((linspace s e n).map f) := by
    refine le_listMin _ _ hneL ?_
    intro x hx
    obtain ⟨t, ht, rfl⟩ := List.mem_map.mp hx
    have hIcc := linspace_mem_Icc s e n hse t ht
    exact csInf_le hB (Set.mem_image_of_mem f (Set.mem_Icc.mpr hIcc))
  obtain ⟨k, hk, hkd⟩ := linspace_net s e hse t0 ht0 n hn2
  have hd : dist (s + (e - s) * (k : ℝ) / ((n : ℝ) - 1)) t0 < δ := by
    rw [Real.dist_eq]
    exact lt_of_le_of_lt hkd hmesh
  have hfd := hδp hd
  rw [Real.dist_eq] at hfd
  have hfd2 := abs_lt.mp hfd
  have hmem : f (s + (e - s) * (k : ℝ) / ((n : ℝ) - 1)) ∈ (linspace s e n).map f := by
    apply List.mem_map_of_mem
    unfold linspace
    exact List.mem_map_of_mem _ hk
  have hub := listMin_le _ _ hmem
  rw [Real.dist_eq, abs_lt]
  constructor
  · linarith
  · linarith [hfd2.2]

theorem continuous_pointAt_x (E : Ellipse) : Continuous fun t => (E.pointAt t).x := by
  unfold Ellipse.pointAt
  dsimp only
  fun_prop

theorem continuous_pointAt_y (E : Ellipse) : Continuous fun t => (E.pointAt t).y := by
  unfold Ellipse.pointAt
  dsimp only
  fun_prop

/-- C8 (amended): for every fixed EllipseArc, each of the four extrema of the
rectangle returned by `bounds` never exceeds the arc's true extremum (at
every sample count at least 1 the sampled rectangle is contained in the true
bounding rectangle of the swept arc), and each of the four extrema converges
to the arc's true extremum as the sample count goes to infinity; but the
extrema are not monotonically non-shrinking in the sample count, because the
evenly-spaced sample sets are not nested. -/
theorem ellipse_bounds_extrema (E : Ellipse) :
    (∀ n : ℕ, n ≠ 0 →
      E.trueRect.bl.x ≤ (E.bounds n).bl.x ∧ (E.bounds n).tr.x ≤ E.trueRect.tr.x ∧
      E.trueRect.bl.y ≤ (E.bounds n).bl.y ∧ (E.bounds n).tr.y ≤ E.trueRect.tr.y) ∧
    Filter.Tendsto (fun n : ℕ => (E.bounds n).bl.x) Filter.atTop (nhds E.trueRect.bl.x) ∧
    Filter.Tendsto (fun n : ℕ => (E.bounds n).tr.x) Filter.atTop (nhds E.trueRect.tr.x) ∧
    Filter.Tendsto (fun n : ℕ => (E.bounds n).bl.y) Filter.atTop (nhds E.trueRect.bl.y) ∧
    Filter.Tendsto (fun n : ℕ => (E.bounds n).tr.y) Filter.atTop (nhds E.trueRect.tr.y) := by
  have hse := normStart_le_normEnd E
  refine ⟨fun n hn => sampled_rect_subset_trueRect E n hn, ?_, ?_, ?_, ?_⟩
  · show Filter.Tendsto
        (fun n : ℕ =>
          listMin ((linspace E.normStart E.normEnd n).map fun t => (E.pointAt t).x))
        Filter.atTop
        (nhds (sInf (Set.image (fun t => (E.pointAt t).x)
          (Set.Icc E.normStart E.normEnd))))
    exact tendsto_listMin_linspace _ (continuous_pointAt_x E) _ _ hse (sweepX_bddBelow E)
  · show Filter.Tendsto
        (fun n : ℕ =>
          listMax ((linspace E.normStart E.normEnd n).map fun t => (E.pointAt t).x))
        Filter.atTop
        (nhds (sSup (Set.image (fun t => (E.pointAt t).x)
          (Set.Icc E.normStart E.normEnd))))
    exact tendsto_listMax_linspace _ (continuous_pointAt_x E) _ _ hse (sweepX_bddAbove E)
  · show Filter.Tendsto
        (fun n : ℕ =>
          listMin ((linspace E.normStart E.normEnd n).map fun t => (E.pointAt t).y))
        Filter.atTop
        (nhds (sInf (Set.image (fun t => (E.pointAt t).y)
          (Set.Icc E.normStart E.normEnd))))
    exact tendsto_listMin_linspace _ (continuous_pointAt_y E) _ _ hse (sweepY_bddBelow E)
  · show Filter.Tendsto
        (fun n : ℕ =>
          listMax ((linspace E.normStart E.normEnd n).map fun t => (E.pointAt t).y))
        Filter.atTop
        (nhds (sSup (Set.image (fun t => (E.pointAt t).y)
          (Set.Icc E.normStart E.normEnd))))
    exact tendsto_listMax_linspace _ (continuous_pointAt_y E) _ _ hse (sweepY_bddAbove E)

/-! ### A concrete full-circle elliptical arc -/

/-- A full unit circle presented as the source's EllipseArc: center at the
origin, unit major axis along x, ratio 1, and equal start and end
parameters. -/
noncomputable def fullCircle : Ellipse := ⟨⟨0, 0⟩, ⟨1, 0⟩, 1, 0, 0⟩

theorem fullCircle_normStart : fullCircle.normStart = 0 := by
  show fmod (0 : ℝ) (2 * π) = 0
  unfold fmod
  norm_num

theorem fullCircle_normEnd : fullCircle.normEnd = 2 * π := by
  have h : fmod fullCircle.end_param (2 * π) = 0 := by
    show fmod (0 : ℝ) (2 * π) = 0
    unfold fmod
    norm_num
  simp only [Ellipse.normEnd]
  rw [h, fullCircle_normStart, if_pos (le_refl (0 : ℝ))]
  ring

theorem fullCircle_semiMajor : fullCircle.semiMajor = 1 := by
  show Real.sqrt ((1 : ℝ) ^ 2 + (0 : ℝ) ^ 2) = 1
  norm_num

theorem fullCircle_theta : fullCircle.theta = 0 := by
  show arctan2 0 1 = 0
  unfold arctan2
  have h : (⟨1, 0⟩ : ℂ) = 1 := by
    apply Complex.ext <;> simp
  rw [h, Complex.arg_one]

theorem fullCircle_pointAt_y (t : ℝ) : (fullCircle.pointAt t).y = Real.sin t := by
  unfold Ellipse.pointAt
  dsimp only
  rw [fullCircle_semiMajor, fullCircle_theta]
  show 1 * Real.cos t * Real.sin 0 + 1 * fullCircle.ratio * Real.sin t * Real.cos 0 +
    fullCircle.center.y = Real.sin t
  rw [show fullCircle.ratio = 1 from rfl, show fullCircle.center.y = 0 from rfl,
    Real.sin_zero, Real.cos_zero]
  ring

theorem linspace_three : linspace 0 (2 * π) 3 = [0, π, 2 * π] := by
  unfold linspace
  rw [show List.range 3 = [0, 1, 2] from rfl]
  simp only [List.map_cons, List.map_nil, List.cons.injEq, and_true]
  exact ⟨by push_cast; ring, by push_cast; ring, by push_cast; ring⟩

theorem linspace_five :
    linspace 0 (2 * π) 5 = [0, π / 2, π, 3 * π / 2, 2 * π] := by
  unfold linspace
  rw [show List.range 5 = [0, 1, 2, 3, 4] from rfl]
  simp only [List.map_cons, List.map_nil, List.cons.injEq, and_true]
  exact ⟨by push_cast; ring, by push_cast; ring, by push_cast; ring, by push_cast; ring,
    by push_cast; ring⟩

theorem linspace_six :
    linspace 0 (2 * π) 6 =
      [0, 2 * π / 5, 4 * π / 5, 6 * π / 5, 8 * π / 5, 2 * π] := by
  unfold linspace
  rw [show List.range 6 = [0, 1, 2, 3, 4, 5] from rfl]
  simp only [List.map_cons, List.map_nil, List.cons.injEq, and_true]
  exact ⟨by push_cast; ring, by push_cast; ring, by push_cast; ring, by push_cast; ring,
    by push_cast; ring, by push_cast; ring⟩

theorem foldl_max_lt (t : List ℝ) (i b : ℝ) (hi : i < b) (h : ∀ x ∈ t, x < b) :
    t.foldl max i < b := by
  induction t generalizing i with
  | nil => exact hi
  | cons a t ih =>
    exact ih (max i a) (max_lt hi (h a (by simp))) fun x hx => h x (by simp [hx])

theorem listMax_lt (l : List ℝ) (b : ℝ) (hne : l ≠ []) (h : ∀ x ∈ l, x < b) :
    listMax l < b := by
  cases l with
  | nil => cases hne rfl
  | cons a t => exact foldl_max_lt t a b (h a (by simp)) fun x hx => h x (by simp [hx])

theorem sin_lt_one_aux {x : ℝ} (h0 : 0 ≤ x) (h1 : x < π / 2) : Real.sin x < 1 := by
  have hpi := Real.pi_pos
  have h := Real.strictMonoOn_sin (a := x) ⟨by linarith, h1.le⟩
    (b := π / 2) ⟨by linarith, le_refl _⟩ h1
  rwa [Real.sin_pi_div_two] at h

theorem fullCircle_boundsFive_top : (fullCircle.bounds 5).tr.y = 1 := by
  show listMax ((linspace fullCircle.normStart fullCircle.normEnd 5).map
      fun t => (fullCircle.pointAt t).y) = 1
  rw [fullCircle_normStart, fullCircle_normEnd, linspace_five]
  simp only [List.map_cons, List.map_nil, fullCircle_pointAt_y]
  rw [Real.sin_zero, Real.sin_pi_div_two, Real.sin_pi,
    show (3 : ℝ) * π / 2 = π / 2 + π by ring, Real.sin_add_pi, Real.sin_pi_div_two,
    Real.sin_two_pi]
  show [(1 : ℝ), 0, -1, 0].foldl max 0 = 1
  norm_num [max_def]

theorem fullCircle_boundsSix_top : (fullCircle.bounds 6).tr.y < 1 := by
  show listMax ((linspace fullCircle.normStart fullCircle.normEnd 6).map
      fun t => (fullCircle.pointAt t).y) < 1
  rw [fullCircle_normStart, fullCircle_normEnd, linspace_six]
  simp only [List.map_cons, List.map_nil, fullCircle_pointAt_y]
  have hpi := Real.pi_pos
  refine listMax_lt _ _ (by simp) ?_
  intro x hx
  simp only [List.mem_cons, List.not_mem_nil, or_false] at hx
  rcases hx with rfl | rfl | rfl | rfl | rfl | rfl
  · rw [Real.sin_zero]
    norm_num
  · exact sin_lt_one_aux (by positivity) (by linarith)
  · rw [show (4 : ℝ) * π / 5 = π - π / 5 by ring, Real.sin_pi_sub]
    exact sin_lt_one_aux (by positivity) (by linarith)
  · rw [show (6 : ℝ) * π / 5 = π / 5 + π by ring, Real.sin_add_pi]
    have h := Real.sin_nonneg_of_nonneg_of_le_pi (x := π / 5) (by positivity) (by linarith)
    linarith
  · rw [show (8 : ℝ) * π / 5 = 3 * π / 5 + π by ring, Real.sin_add_pi]
    have h := Real.sin_nonneg_of_nonneg_of_le_pi (x := 3 * π / 5) (by positivity)
      (by linarith)
    linarith
  · rw [Real.sin_two_pi]
    norm_num

/-- C8 counterexample: for the full unit circle the top extremum of the
sampled bounds *shrinks* when the sample count increases from 5 to 6 — five
samples hit the parameter `π/2` exactly (max y = 1), six samples miss it
(max y = sin(2π/5) < 1) — so the four extrema are not monotonically
non-shrinking in the sample count, and the shrinkage (about 0.049) is far
beyond floating tolerance. -/
theorem ellipse_bounds_not_monotone_counterexample :
    (fullCircle.bounds 6).tr.y < (fullCircle.bounds 5).tr.y := by
  rw [fullCircle_boundsFive_top]
  exact fullCircle_boundsSix_top

/-- C8 witness: the extrema theorem applied to the concrete full circle at
sample count 2. -/
theorem ellipse_bounds_extrema_witness :
    (2 : ℕ) ≠ 0 ∧ (fullCircle.bounds 2).tr.y ≤ fullCircle.trueRect.tr.y :=
  ⟨by decide, ((ellipse_bounds_extrema fullCircle).1 2 (by decide)).2.2.2⟩

/-- C10 counterexample: for the full-circle EllipseArc (start and end
parameters exactly equal, hence congruent modulo 2π) the rectangle returned
by `bounds` with 3 samples does not bound the entire ellipse: the ellipse
point at parameter `π/2` lies inside the full `2π` sweep but strictly above
the rectangle's top edge (the three samples 0, π, 2π all have y = 0). -/
theorem ellipse_full_sweep_counterexample :
    fullCircle.normStart ≤ π / 2 ∧ π / 2 ≤ fullCircle.normEnd ∧
      ¬(fullCircle.bounds 3).containsPt (fullCircle.pointAt (π / 2)) := by
  have hpi := Real.pi_pos
  have htop : (fullCircle.bounds 3).tr.y = 0 := by
    show listMax ((linspace fullCircle.normStart fullCircle.normEnd 3).map
        fun t => (fullCircle.pointAt t).y) = 0
    rw [fullCircle_normStart, fullCircle_normEnd, linspace_three]
    simp only [List.map_cons, List.map_nil, fullCircle_pointAt_y]
    rw [Real.sin_zero, Real.sin_pi, Real.sin_two_pi]
    show [(0 : ℝ), 0].foldl max 0 = 0
    norm_num [max_def]
  refine ⟨by rw [fullCircle_normStart]; positivity, by rw [fullCircle_normEnd]; linarith, ?_⟩
  intro h
  obtain ⟨-, -, -, h4⟩ := h
  rw [fullCircle_pointAt_y, Real.sin_pi_div_two, htop] at h4
  linarith

/-- C10 (amended): when an EllipseArc's start and end parameters are congruent
modulo 2π (including exact equality), `bounds()` treats the arc as a full
ellipse: after normalizing both parameters into [0, 2π), `end ≤ start`
triggers adding 2π, so the normalized end is exactly the normalized start
plus 2π and the sampled parameter range spans a full 2π sweep; the returned
rectangle bounds all sampled points of that sweep, but at a finite sample
count it does not bound the entire ellipse. -/
theorem ellipse_full_sweep_amended (E : Ellipse)
    (h : ∃ k : ℤ, E.end_param = E.start_param + 2 * π * k) :
    E.normEnd = E.normStart + 2 * π := by
  obtain ⟨k, hk⟩ := h
  have hmod : fmod E.end_param (2 * π) = E.normStart := by
    unfold Ellipse.normStart
    rw [hk]
    exact fmod_add_int_mul E.start_param (2 * π) k Real.two_pi_pos.ne'
  simp only [Ellipse.normEnd]
  rw [hmod, if_pos (le_refl E.normStart)]

/-- C10 witness: the full circle's parameters are congruent modulo 2π and its
normalized sweep is exactly 2π wide. -/
theorem ellipse_full_sweep_amended_witness :
    (∃ k : ℤ, fullCircle.end_param = fullCircle.start_param + 2 * π * k) ∧
      fullCircle.normEnd = fullCircle.normStart + 2 * π :=
  ⟨⟨0, by norm_num [fullCircle]⟩, ellipse_full_sweep_amended fullCircle ⟨0, by norm_num [fullCircle]⟩⟩

end DxfPdf
